import Mathlib

set_option maxRecDepth 100000

/-!
Verification of the retrieval-and-caching engine of the document-QA backend
(`backend/app/services/llm.py` and `backend/app/services/document.py`).

Shallow embedding conventions:
* Text is modelled as `List Char` (`Str`).  Python string primitives
  (`str.split`, `str.strip`, `str.lower`, `in`, slicing, `re.split`,
  `re.findall`) are embedded character by character over their ASCII
  behaviour.
* Real-valued quantities: the chunk scores (Python floats) are embedded as
  exact fractions (`Frac`, an `Int` numerator over a positive denominator)
  with semantics in `ℚ`; timestamps (`time.time()`) are embedded as `ℤ`.
  All TTL logic is purely order-theoretic, so this preserves the cache
  behaviour exactly.
* Fallible code returns `Option`/`Except`: a `ZeroDivisionError` raised by
  the scorer surfaces as `Option.none`, the service-level exceptions
  (`DocumentNotFoundError`, the `ValueError`s wrapping read and upstream
  failures) as `Except.error`.
* The two I/O collaborators are parameters: the stored files are an
  association list from path to decoded text, and a model response is
  `Option (List (Option Str))` — `none` for a transport/API exception, and
  otherwise the list of choices, each with optional message content.
-/

/-! ## Python string primitives -/

/-- Text is a list of characters. -/
abbrev Str := List Char

/-- Coerce a Lean string literal to the character-list representation. -/
def str (s : String) : Str := s.data

/-- The whitespace characters recognised by Python's `str.split()`,
`str.strip()` and the regex class `\s` (ASCII fragment). -/
def isPySpace (c : Char) : Bool :=
  c = ' ' || c = '\t' || c = '\n' || c = '\r' || c = '\x0b' || c = '\x0c'

/-- `str.lower` on a single character (ASCII fragment). -/
def pyLowerChar (c : Char) : Char :=
  if 'A' ≤ c ∧ c ≤ 'Z' then Char.ofNat (c.toNat + 32) else c

/-- `str.lower` (ASCII fragment). -/
def pyLower (l : Str) : Str := l.map pyLowerChar

/-- `str.strip()`: drop leading and trailing whitespace. -/
def pyStrip (l : Str) : Str :=
  ((l.dropWhile isPySpace).reverse.dropWhile isPySpace).reverse

/-- Helper for `runsBy`: group a character list into maximal runs of
characters satisfying `p`, recording an (initially empty) run at every
separator.  The result is never empty. -/
def runsByGroup (p : Char → Bool) : Str → List Str
  | [] => [[]]
  | c :: cs =>
    match runsByGroup p cs with
    | [] => [[]]
    | w :: ws => if p c then (c :: w) :: ws else [] :: w :: ws

/-- Maximal nonempty runs of characters satisfying `p`, in order. -/
def runsBy (p : Char → Bool) (l : Str) : List Str :=
  (runsByGroup p l).filter (fun w => !w.isEmpty)

/-- Python `text.split()` (split on whitespace runs, dropping empties). -/
def pySplit (l : Str) : List Str := runsBy (fun c => !isPySpace c) l

/-- Python `re.findall(r'\w+', text)` (ASCII fragment): maximal runs of
alphanumeric-or-underscore characters. -/
def wordRuns (l : Str) : List Str := runsBy (fun c => c.isAlphanum || c = '_') l

/-- Python substring test `pat in hay`. -/
def hasSub (pat : Str) : Str → Bool
  | [] => pat.isEmpty
  | c :: rest => pat.isPrefixOf (c :: rest) || hasSub pat rest

/-- `" ".join(pieces)`. -/
def joinSpace : List Str → Str
  | [] => []
  | [x] => x
  | x :: y :: rest => x ++ ' ' :: joinSpace (y :: rest)

/-! ## Chunk splitter (`LLMService._split_into_chunks`) -/

/-- `text.replace('\n', ' ').replace('\r', ' ')` on one character. -/
def nlToSpace (c : Char) : Char := if c = '\n' ∨ c = '\r' then ' ' else c

/-- Lines 36–37 of `llm.py`: replace newlines and carriage returns by
spaces, then `' '.join(text.split())` — collapse whitespace runs to single
spaces and trim. -/
def normalizeText (l : Str) : Str :=
  joinSpace (pySplit (l.map nlToSpace))

/-- A sentence-boundary character for the pattern `(?<=[.!?])\s+`. -/
def isSentEnd (c : Char) : Bool := c = '.' || c = '!' || c = '?'

/-- Whether a character list starts with whitespace. -/
def headIsSpace : Str → Bool
  | [] => false
  | c :: _ => isPySpace c

/-- Prepend a character to the first piece of a piece list. -/
def consHead (c : Char) : List Str → List Str
  | [] => [[c]]
  | p :: ps => (c :: p) :: ps

/-- The scanner behind `re.split(r'(?<=[.!?])\s+', text)`.  The flag is
`true` while the scanner is consuming a (maximal) whitespace run that
followed a sentence-end character; a piece boundary is placed there. -/
def rssGo : Bool → Str → List Str
  | _, [] => [[]]
  | true, c :: cs =>
    if isPySpace c then rssGo true cs
    else if isSentEnd c && headIsSpace cs then [c] :: rssGo true cs
    else consHead c (rssGo false cs)
  | false, c :: cs =>
    if isSentEnd c && headIsSpace cs then [c] :: rssGo true cs
    else consHead c (rssGo false cs)

/-- `re.split(r'(?<=[.!?])\s+', text)`: split at whitespace runs that
immediately follow `.`, `!` or `?`, consuming the whitespace. -/
def reSplitSent (l : Str) : List Str := rssGo false l

/-- One iteration of the sentence-accumulation loop of
`_split_into_chunks` (lines 45–56): state is (emitted chunks, current
chunk buffer). -/
def chunkStep (maxChunkSize : Nat) (st : List Str × Str) (sentence : Str) :
    List Str × Str :=
  let s := pyStrip sentence
  if s.isEmpty then st
  else
    let (chunks, current) := st
    if current.length + s.length < maxChunkSize then
      (chunks, current ++ s ++ [' '])
    else
      ((if current.isEmpty then chunks else chunks ++ [pyStrip current]),
       s ++ [' '])

/-- Close the final buffer (lines 58–59): emit it if nonempty. -/
def chunkFinish (st : List Str × Str) : List Str :=
  if st.2.isEmpty then st.1 else st.1 ++ [pyStrip st.2]

/-- `LLMService._split_into_chunks` with the chunk-size tunable explicit
(`self.max_chunk_size = 500`). -/
def splitIntoChunksSized (maxChunkSize : Nat) (text : Str) : List Str :=
  chunkFinish ((reSplitSent (normalizeText text)).foldl (chunkStep maxChunkSize) ([], []))

/-- `LLMService._split_into_chunks` at the configured chunk size. -/
def splitIntoChunks (text : Str) : List Str := splitIntoChunksSized 500 text

/-! ## Exact fractions

The scorer's real arithmetic (Python floats) is embedded as exact
fractions: an integer numerator over a positive denominator, with
semantics in `ℚ` via `Frac.q`.  All denominators produced by the code are
word counts (guarded to be nonzero) and products of such, so exact
arithmetic mirrors the ideal value of the float computation. -/

/-- An exact fraction: numerator over positive denominator. -/
structure Frac where
  num : Int
  den : ℕ+
deriving DecidableEq

/-- The rational value of a fraction. -/
def Frac.q (f : Frac) : ℚ := (f.num : ℚ) / ((f.den : ℕ) : ℚ)

/-- Addition: `a/b + c/d = (ad + cb)/(bd)`. -/
def Frac.add (a b : Frac) : Frac :=
  ⟨a.num * ((b.den : ℕ) : ℤ) + b.num * ((a.den : ℕ) : ℤ), a.den * b.den⟩

/-- Multiplication. -/
def Frac.mul (a b : Frac) : Frac := ⟨a.num * b.num, a.den * b.den⟩

/-- Division by a positive natural number. -/
def Frac.divPNat (a : Frac) (n : ℕ+) : Frac := ⟨a.num, a.den * n⟩

/-- Strict order, by cross multiplication (valid: denominators positive). -/
def Frac.lt (a b : Frac) : Prop :=
  a.num * ((b.den : ℕ) : ℤ) < b.num * ((a.den : ℕ) : ℤ)

/-- Value equality, by cross multiplication. -/
def Frac.feq (a b : Frac) : Prop :=
  a.num * ((b.den : ℕ) : ℤ) = b.num * ((a.den : ℕ) : ℤ)

instance (a b : Frac) : Decidable (Frac.lt a b) :=
  inferInstanceAs (Decidable (_ < _))

instance (a b : Frac) : Decidable (Frac.feq a b) :=
  inferInstanceAs (Decidable (_ = _))

/-! ## Relevance scorer and selector (`LLMService._get_relevant_chunks`) -/

/-- The fixed stop-word set of `_get_relevant_chunks` (lines 74–77). -/
def stopWords : List Str :=
  [str "what", str "when", str "where", str "who", str "why", str "how",
   str "is", str "are", str "the", str "a", str "an", str "in", str "on",
   str "at", str "to", str "for", str "of", str "with", str "by"]

/-- `self.metadata_keywords` (lines 28–31). -/
def metadataKeywords : List Str :=
  [str "title", str "author", str "authors", str "written", str "published",
   str "publication", str "copyright", str "version", str "edition",
   str "year"]

/-- `keywords = set(re.findall(r'\w+', question.lower())) - stop_words`. -/
def keywordsOf (question : Str) : List Str :=
  ((wordRuns (pyLower question)).dedup).filter (fun w => !stopWords.contains w)

/-- `is_metadata_question = any(word in self.metadata_keywords for word in
keywords)`. -/
def isMetaQuestion (keywords : List Str) : Bool :=
  keywords.any (fun w => metadataKeywords.contains w)

/-- `sum(1 for keyword in keywords if keyword in chunk.lower())`. -/
def keywordMatches (keywords : List Str) (chunk : Str) : Nat :=
  (keywords.filter (fun kw => hasSub kw (pyLower chunk))).length

/-- `sum(1 for keyword in keywords for word in chunk.lower().split() if
is_partial_match(keyword, word))` where `is_partial_match(kw, w)` is
`kw in w or w in kw`. -/
def partMatchCount (keywords : List Str) (chunk : Str) : Nat :=
  (keywords.map (fun kw =>
    ((pySplit (pyLower chunk)).filter
      (fun w => hasSub kw w || hasSub w kw)).length)).sum

/-- `sum(1 for word in self.metadata_keywords if word in chunk.lower())`. -/
def metadataMatches (chunk : Str) : Nat :=
  (metadataKeywords.filter (fun w => hasSub w (pyLower chunk))).length

/-- One neighbour's contribution to the context score: keyword hits in the
lowered neighbour divided by its word count.  `none` models the
`ZeroDivisionError` raised when the neighbour has no words. -/
def neighborRate (keywords : List Str) (nb : Str) : Option Frac :=
  let w := (pySplit (pyLower nb)).length
  if hw : w = 0 then none
  else some ⟨keywordMatches keywords nb, ⟨w, Nat.pos_of_ne_zero hw⟩⟩

/-- Lines 117–130: `context_score` starts at `0.0`, adds the rate of the
previous and of the next chunk when they exist, and is halved. -/
def contextScore (chunks : List Str) (keywords : List Str) (i : Nat) :
    Option Frac := do
  let z : Frac := ⟨0, 1⟩
  let s1 ← if 0 < i then neighborRate keywords (chunks.getD (i - 1) [])
           else some z
  let s2 ← if i + 1 < chunks.length then
             neighborRate keywords (chunks.getD (i + 1) [])
           else some z
  some ((s1.add s2).divPNat 2)

/-- The loop body of lines 90–147 for chunk `i` with word count `w ≥ 1`:
`final_score = density*0.4 + partial_score*0.2 + context_score*0.2 +
metadata_score*0.2`. -/
def scoreChunk (chunks : List Str) (keywords : List Str) (isMetaQ : Bool)
    (i : Nat) (chunk : Str) (w : ℕ+) : Option Frac := do
  let density : Frac := ⟨keywordMatches keywords chunk, w⟩
  let partScore : Frac := ⟨partMatchCount keywords chunk, w⟩
  let ctx ← contextScore chunks keywords i
  let metaScore : Frac :=
    if isMetaQ then ⟨metadataMatches chunk, w⟩ else ⟨0, 1⟩
  some ((((density.mul ⟨4, 10⟩).add (partScore.mul ⟨2, 10⟩)).add
    (ctx.mul ⟨2, 10⟩)).add (metaScore.mul ⟨2, 10⟩))

/-- The scoring loop (`for i, chunk in enumerate(chunks)`): chunks with
zero words are skipped; otherwise a `(final_score, i, chunk)` triple is
appended.  `none` models a `ZeroDivisionError` escaping the loop. -/
def scoreChunksGo (chunks : List Str) (keywords : List Str)
    (isMetaQ : Bool) : Nat → List Str → Option (List (Frac × Nat × Str))
  | _, [] => some []
  | i, c :: rest =>
    let w := (pySplit c).length
    if hw : w = 0 then scoreChunksGo chunks keywords isMetaQ (i + 1) rest
    else do
      let sc ← scoreChunk chunks keywords isMetaQ i c
        ⟨w, Nat.pos_of_ne_zero hw⟩
      let tail ← scoreChunksGo chunks keywords isMetaQ (i + 1) rest
      some ((sc, i, c) :: tail)

/-- `chunk_scores` for a chunk list and question. -/
def chunkScores (chunks : List Str) (question : Str) :
    Option (List (Frac × Nat × Str)) :=
  let keywords := keywordsOf question
  scoreChunksGo chunks keywords (isMetaQuestion keywords) 0 chunks

/-- The comparison realised by `chunk_scores.sort(reverse=True)` on
`(score, idx, chunk)` triples: score descending, ties by index
descending (Python compares the tuples lexicographically and reverses;
indices are distinct, so the chunk text never takes part). -/
def scoreBefore (a b : Frac × Nat × Str) : Prop :=
  Frac.lt b.1 a.1 ∨ (Frac.feq a.1 b.1 ∧ b.2.1 ≤ a.2.1)

instance : DecidableRel scoreBefore := fun _ _ =>
  inferInstanceAs (Decidable (_ ∨ _))

/-- The selection loop of lines 156–180: walk the sorted scores; early
`break` once `max_chunks` are selected is modelled by the guard (the
count never decreases).  A newly selected chunk with score above `0.1`
also pulls in its unselected neighbours. -/
def selectStep (chunks : List Str) (maxChunks : Nat)
    (st : List Nat × List Str) (t : Frac × Nat × Str) :
    List Nat × List Str :=
  if st.2.length ≥ maxChunks then st
  else if st.1.contains t.2.1 then st
  else
    let selIdx := t.2.1 :: st.1
    let selChunks := st.2 ++ [t.2.2]
    if Frac.lt ⟨1, 10⟩ t.1 then
      let st1 :=
        if 0 < t.2.1 ∧ ¬ selIdx.contains (t.2.1 - 1) then
          ((t.2.1 - 1) :: selIdx, selChunks ++ [chunks.getD (t.2.1 - 1) []])
        else (selIdx, selChunks)
      if t.2.1 + 1 < chunks.length ∧ ¬ st1.1.contains (t.2.1 + 1) then
        ((t.2.1 + 1) :: st1.1, st1.2 ++ [chunks.getD (t.2.1 + 1) []])
      else st1
    else (selIdx, selChunks)

/-- Line 183: `selected_chunks.sort(key=lambda x: chunks.index(x))` — a
stable sort on the index of the first occurrence in `chunks`. -/
def chunkIndexLE (chunks : List Str) (x y : Str) : Prop :=
  List.indexOf x chunks ≤ List.indexOf y chunks

instance (chunks : List Str) : DecidableRel (chunkIndexLE chunks) :=
  fun _ _ => inferInstanceAs (Decidable (_ ≤ _))

/-- Restore document order of the selected chunks. -/
def restoreOrder (chunks : List Str) (sel : List Str) : List Str :=
  List.insertionSort (chunkIndexLE chunks) sel

/-- The truncation walk of lines 188–198. -/
def truncGo (maxLen : Nat) : Nat → List Str → List Str
  | _, [] => []
  | cur, c :: cs =>
    if cur + c.length ≤ maxLen then c :: truncGo maxLen (cur + c.length) cs
    else if maxLen - cur > 100 then [c.take (maxLen - cur)] else []

/-- Lines 185–199: truncate only when the summed chunk lengths exceed
`max_context_length`. -/
def truncateChunks (maxLen : Nat) (sel : List Str) : List Str :=
  if (sel.map List.length).sum > maxLen then truncGo maxLen 0 sel else sel

/-- `LLMService._get_relevant_chunks` with the two tunables explicit. -/
def getRelevantChunksTuned (maxChunks maxContextLength : Nat)
    (chunks : List Str) (question : Str) : Option (List Str) := do
  let scores ← chunkScores chunks question
  let sorted := List.insertionSort scoreBefore scores
  let selected := (sorted.foldl (selectStep chunks maxChunks) ([], [])).2
  some (truncateChunks maxContextLength (restoreOrder chunks selected))

/-- `LLMService._get_relevant_chunks` at the configured tunables
(`max_chunks = 8`, `max_context_length = 4000`). -/
def getRelevantChunks (chunks : List Str) (question : Str) :
    Option (List Str) :=
  getRelevantChunksTuned 8 4000 chunks question

/-! ## SHA-256 and the cache key (`LLMService._generate_cache_key`)

`hashlib.sha256(combined.encode()).hexdigest()` is embedded by a direct
implementation of UTF-8 encoding and of SHA-256 (FIPS 180-4) over byte
lists, with 32-bit words as naturals reduced modulo `2^32`. -/

/-- `2^32`. -/
def m32 : Nat := 4294967296

/-- Combine two 32-bit words bit by bit (structural fuel recursion, so
that it evaluates inside the kernel). -/
def bitOp (f : Nat → Nat → Nat) : Nat → Nat → Nat → Nat
  | 0, _, _ => 0
  | k + 1, x, y => f (x % 2) (y % 2) + 2 * bitOp f k (x / 2) (y / 2)

/-- 32-bit exclusive or. -/
def xor32 (x y : Nat) : Nat := bitOp (fun a b => (a + b) % 2) 32 x y

/-- 32-bit and. -/
def and32 (x y : Nat) : Nat := bitOp (fun a b => a * b) 32 x y

/-- 32-bit complement. -/
def not32 (x : Nat) : Nat := 4294967295 - x

/-- Right rotation of a 32-bit word by `n`. -/
def rotr (n x : Nat) : Nat := x / 2 ^ n + x % 2 ^ n * 2 ^ (32 - n)

/-- The SHA-256 round constants. -/
def K256 : List Nat :=
  [1116352408, 1899447441, 3049323471, 3921009573, 961987163, 1508970993,
   2453635748, 2870763221, 3624381080, 310598401, 607225278, 1426881987,
   1925078388, 2162078206, 2614888103, 3248222580, 3835390401, 4022224774,
   264347078, 604807628, 770255983, 1249150122, 1555081692, 1996064986,
   2554220882, 2821834349, 2952996808, 3210313671, 3336571891, 3584528711,
   113926993, 338241895, 666307205, 773529912, 1294757372, 1396182291,
   1695183700, 1986661051, 2177026350, 2456956037, 2730485921, 2820302411,
   3259730800, 3345764771, 3516065817, 3600352804, 4094571909, 275423344,
   430227734, 506948616, 659060556, 883997877, 958139571, 1322822218,
   1537002063, 1747873779, 1955562222, 2024104815, 2227730452, 2361852424,
   2428436474, 2756734187, 3204031479, 3329325298]

/-- The SHA-256 initial hash value. -/
def H256 : List Nat :=
  [1779033703, 3144134277, 1013904242, 2773480762, 1359893119, 2600822924,
   528734635, 1541459225]

/-- Message-schedule sigma-0. -/
def ssig0 (x : Nat) : Nat := xor32 (xor32 (rotr 7 x) (rotr 18 x)) (x / 2 ^ 3)

/-- Message-schedule sigma-1. -/
def ssig1 (x : Nat) : Nat := xor32 (xor32 (rotr 17 x) (rotr 19 x)) (x / 2 ^ 10)

/-- Compression Sigma-0. -/
def bsig0 (x : Nat) : Nat := xor32 (xor32 (rotr 2 x) (rotr 13 x)) (rotr 22 x)

/-- Compression Sigma-1. -/
def bsig1 (x : Nat) : Nat := xor32 (xor32 (rotr 6 x) (rotr 11 x)) (rotr 25 x)

/-- Extend a 16-word block to the 64-word message schedule. -/
def extendSchedule : Nat → List Nat → List Nat
  | 0, w => w
  | k + 1, w =>
    let n := w.length
    let wi := (ssig1 (w.getD (n - 2) 0) + w.getD (n - 7) 0 +
      ssig0 (w.getD (n - 15) 0) + w.getD (n - 16) 0) % m32
    extendSchedule k (w ++ [wi])

/-- One round of the SHA-256 compression function; the state is the list
`[a, b, c, d, e, f, g, h]`, and `kw` is the round constant plus the
schedule word. -/
def sha256Round (st : List Nat) (kw : Nat) : List Nat :=
  match st with
  | [a, b, c, d, e, f, g, h] =>
    let ch := xor32 (and32 e f) (and32 (not32 e) g)
    let maj := xor32 (xor32 (and32 a b) (and32 a c)) (and32 b c)
    let t1 := (h + bsig1 e + ch + kw) % m32
    let t2 := (bsig0 a + maj) % m32
    [(t1 + t2) % m32, a, b, c, (d + t1) % m32, e, f, g]
  | _ => st

/-- Group bytes into big-endian 32-bit words. -/
def bytesToWords : List Nat → List Nat
  | b0 :: b1 :: b2 :: b3 :: rest =>
    (((b0 * 256 + b1) * 256 + b2) * 256 + b3) :: bytesToWords rest
  | _ => []

/-- Process one 64-byte block. -/
def sha256Block (h : List Nat) (block : List Nat) : List Nat :=
  let w := extendSchedule 48 (bytesToWords block)
  let kw := List.zipWith (fun k wi => (k + wi) % m32) K256 w
  let st := kw.foldl sha256Round h
  List.zipWith (fun x y => (x + y) % m32) h st

/-- Big-endian byte representation of `v` in `n` bytes. -/
def beBytes : Nat → Nat → List Nat
  | 0, _ => []
  | k + 1, v => beBytes k (v / 256) ++ [v % 256]

/-- SHA-256 padding: a `0x80` byte, zeros to 56 mod 64, then the bit
length in 8 big-endian bytes. -/
def sha256Pad (msg : List Nat) : List Nat :=
  msg ++ 128 :: List.replicate ((119 - msg.length % 64) % 64) 0 ++
    beBytes 8 (msg.length * 8)

/-- Split a padded message into 64-byte blocks (fuel recursion). -/
def toBlocksGo : Nat → List Nat → List (List Nat)
  | 0, _ => []
  | k + 1, l => if l.isEmpty then [] else l.take 64 :: toBlocksGo k (l.drop 64)

/-- Split a padded message into 64-byte blocks. -/
def toBlocks (l : List Nat) : List (List Nat) := toBlocksGo (l.length / 64 + 1) l

/-- The SHA-256 digest of a byte list, as eight 32-bit words. -/
def sha256Words (msg : List Nat) : List Nat :=
  (toBlocks (sha256Pad msg)).foldl sha256Block H256

/-- A lower-case hexadecimal digit. -/
def hexDigit (n : Nat) : Char :=
  if n < 10 then Char.ofNat (48 + n) else Char.ofNat (87 + n)

/-- `n` hexadecimal digits of `v`, most significant first. -/
def hexN : Nat → Nat → Str
  | 0, _ => []
  | k + 1, v => hexN k (v / 16) ++ [hexDigit (v % 16)]

/-- `hashlib.sha256(msg).hexdigest()`. -/
def sha256Hex (msg : List Nat) : Str :=
  ((sha256Words msg).map (hexN 8)).flatten

/-- UTF-8 encoding of one character. -/
def utf8Char (c : Char) : List Nat :=
  let n := c.toNat
  if n < 128 then [n]
  else if n < 2048 then [192 + n / 64, 128 + n % 64]
  else if n < 65536 then [224 + n / 4096, 128 + n / 64 % 64, 128 + n % 64]
  else [240 + n / 262144, 128 + n / 4096 % 64, 128 + n / 64 % 64,
    128 + n % 64]

/-- `text.encode()` — UTF-8 encoding of a string. -/
def utf8Encode (l : Str) : List Nat := (l.map utf8Char).flatten

/-- The string hashed by `_generate_cache_key`:
`f"{document_id}:{question.lower().strip()}"`. -/
def cacheKeyInput (documentId question : Str) : Str :=
  documentId ++ str ":" ++ pyStrip (pyLower question)

/-- `LLMService._generate_cache_key` (lines 289–292). -/
def generateCacheKey (documentId question : Str) : Str :=
  sha256Hex (utf8Encode (cacheKeyInput documentId question))

/-! ## TTL caches

The three caches (`LLMService.cache`, `DocumentService.content_cache`,
`DocumentService.path_cache`) are dictionaries from a key to a
`(value, timestamp)` pair with identical lazy-expiry logic
(`_get_from_cache` / `_get_cached_content` / `_get_cached_path`); they
are embedded by one generic association list keyed by `Str`. -/

/-- A cache table: key, value, insertion timestamp. -/
abbrev Cache (α : Type) := List (Str × α × Int)

/-- Dictionary lookup. -/
def cacheFind (c : Cache α) (k : Str) : Option (α × Int) :=
  (c.find? (fun e => e.1 == k)).map (·.2)

/-- `del cache[k]`. -/
def cacheErase (c : Cache α) (k : Str) : Cache α :=
  c.filter (fun e => !(e.1 == k))

/-- The shared getter: return the value if present and
`now - timestamp < ttl`; delete the entry on discovering it expired. -/
def cacheGet (ttl : Int) (c : Cache α) (k : Str) (now : Int) :
    Option α × Cache α :=
  match cacheFind c k with
  | none => (none, c)
  | some (v, ts) =>
    if now - ts < ttl then (some v, c) else (none, cacheErase c k)

/-- `cache[k] = (v, time.time())`. -/
def cachePut (c : Cache α) (k : Str) (v : α) (now : Int) : Cache α :=
  (k, v, now) :: cacheErase c k

/-- `DocumentService.cache_ttl = 300` (content and path caches). -/
def contentTTL : Int := 300

/-- `LLMService.cache_ttl = 3600` (answer cache). -/
def answerTTL : Int := 3600

/-! ## Document service and answer orchestrator

`DocumentService.get_document_path` / `get_document_content` and
`LLMService.get_answer`.  Stored files are an association list from path
to decoded text (UTF-8 decoding with the latin-1 fallback never fails, so
content is modelled as text throughout); format-specific extraction (PDF)
is the collaborator's job and is opaque here.  The dead `GROQ_API_KEY`
re-check at the top of `get_answer` is omitted: `Settings.__init__`
refuses to construct the service without a key. -/

/-- The exceptions that can escape `get_answer`: `DocumentNotFoundError`;
the `ValueError` wrapping a failed document read; the `ValueError`
wrapping a failed model call; and a `ZeroDivisionError` escaping the
scorer. -/
inductive QAErr where
  | notFound (documentId : Str)
  | readError
  | upstream
  | zeroDivision
deriving DecidableEq

/-- The mutable state owned by the two services, plus the stored files. -/
structure QAState where
  answerCache : Cache Str
  contentCache : Cache Str
  pathCache : Cache Str
  files : List (Str × Str)
deriving DecidableEq

/-- `settings.ALLOWED_EXTENSIONS`, in order. -/
def allowedExtensions : List Str :=
  [str "txt", str "pdf", str "doc", str "docx"]

/-- `self.upload_dir / f"{document_id}.{ext}"`. -/
def docPathFor (documentId ext : Str) : Str :=
  str "uploads/" ++ documentId ++ str "." ++ ext

/-- `path.exists()`. -/
def fileExists (files : List (Str × Str)) (p : Str) : Bool :=
  (files.find? (fun e => e.1 == p)).isSome

/-- Read a stored file. -/
def readFile (files : List (Str × Str)) (p : Str) : Option Str :=
  (files.find? (fun e => e.1 == p)).map (·.2)

/-- `DocumentService.get_document_path` (lines 103–114): an unexpired
cached path is returned as is (a `Path` is always truthy); otherwise the
allowed extensions are probed in order and the first existing path is
cached and returned; `none` models `DocumentNotFoundError`. -/
def getDocumentPath (pathCache : Cache Str) (files : List (Str × Str))
    (documentId : Str) (now : Int) : Option Str × Cache Str :=
  match cacheGet contentTTL pathCache documentId now with
  | (some p, pc) => (some p, pc)
  | (none, pc) =>
    match allowedExtensions.find?
        (fun e => fileExists files (docPathFor documentId e)) with
    | some ext =>
      let p := docPathFor documentId ext
      (some p, cachePut pc documentId p now)
    | none => (none, pc)

/-- The miss path of `get_document_content`: resolve the path, read the
file (any reading failure is wrapped into a `ValueError`, `readError`
here), and populate the content cache. -/
def getDocumentContentDisk (st : QAState) (documentId : Str) (now : Int) :
    Except QAErr Str × QAState :=
  let (mp, pc1) := getDocumentPath st.pathCache st.files documentId now
  let st1 := { st with pathCache := pc1 }
  match mp with
  | none => (.error (QAErr.notFound documentId), st1)
  | some p =>
    match readFile st1.files p with
    | none => (.error QAErr.readError, st1)
    | some text =>
      (.ok text,
       { st1 with contentCache := cachePut st1.contentCache documentId text now })

/-- `DocumentService.get_document_content` (lines 116–160).  Note the
truthiness test `if cached_content:`: an unexpired cache entry holding
empty content is treated as a miss. -/
def getDocumentContent (st : QAState) (documentId : Str) (now : Int) :
    Except QAErr Str × QAState :=
  let (mc, cc1) := cacheGet contentTTL st.contentCache documentId now
  let st1 := { st with contentCache := cc1 }
  match mc with
  | some c =>
    if !c.isEmpty then (.ok c, st1)
    else getDocumentContentDisk st1 documentId now
  | none => getDocumentContentDisk st1 documentId now

/-- `LLMService._create_prompt` (lines 206–223). -/
def createPrompt (content question : Str) : Str :=
  str "You are a helpful assistant that answers questions based on the provided document content. Your task is to:\n1. Read the following content carefully\n2. Answer the question accurately using ONLY the provided content\n3. If you cannot find the answer in the content, say so\n4. Do not make up or infer information not present in the content\n\nImportant: For questions about title, author, or other metadata, look for explicit mentions in the text. Do not guess or infer.\n\nContent:\n" ++
    content ++ str "\n\nQuestion: " ++ question ++ str "\n\nAnswer: "

/-- The cache-miss path of `get_answer` (lines 239–287): fetch and decode
the document, run the splitter, scorer and assembler, build the prompt,
and call the model.  The result triple is (outcome, state, number of
model calls made).  A transport/API exception and an empty choice list
both surface as the `ValueError` of line 287 (`upstream`); a choice whose
message content is `None` yields the answer `str(None) = "None"`.  A
successful answer is cached. -/
def getAnswerCompute (st : QAState) (documentId question : Str) (now : Int)
    (response : Option (List (Option Str))) (key : Str) :
    Except QAErr Str × QAState × Nat :=
  match getDocumentContent st documentId now with
  | (.error e, st1) => (.error e, st1, 0)
  | (.ok content, st1) =>
    match getRelevantChunks (splitIntoChunks content) question with
    | none => (.error QAErr.zeroDivision, st1, 0)
    | some relevantChunks =>
      let relevantContent := joinSpace relevantChunks
      let _prompt := createPrompt relevantContent question
      match response with
      | none => (.error QAErr.upstream, st1, 1)
      | some choices =>
        match choices.head? with
        | none => (.error QAErr.upstream, st1, 1)
        | some choice =>
          let answer := match choice with
            | some s => s
            | none => str "None"
          (.ok answer,
           { st1 with answerCache := cachePut st1.answerCache key answer now },
           1)

/-- `LLMService.get_answer` (lines 225–287).  Note the truthiness test
`if cached_response:` of line 235: an unexpired cached empty answer is
treated as a miss and recomputed. -/
def getAnswer (st : QAState) (documentId question : Str) (now : Int)
    (response : Option (List (Option Str))) :
    Except QAErr Str × QAState × Nat :=
  let key := generateCacheKey documentId question
  let (hit, ac1) := cacheGet answerTTL st.answerCache key now
  let st1 := { st with answerCache := ac1 }
  match hit with
  | some a =>
    if !a.isEmpty then (.ok a, st1, 0)
    else getAnswerCompute st1 documentId question now response key
  | none => getAnswerCompute st1 documentId question now response key

/-! ## C9: the splitter reproduces the normalized text

The key invariant of normalized text: every whitespace character is a
single `' '` followed by a non-whitespace character (in particular the
text does not end in whitespace). -/

/-- Every whitespace character in the list is a `' '` followed by a
non-whitespace character. -/
def spacedOK : Str → Bool
  | [] => true
  | [c] => !isPySpace c
  | c :: d :: rest =>
    (!isPySpace c || (c == ' ' && !isPySpace d)) && spacedOK (d :: rest)

/-- The list does not start with whitespace. -/
def noLeadSpace : Str → Bool
  | [] => true
  | c :: _ => !isPySpace c

/-- A sentence-end character is not whitespace. -/
theorem sentEnd_not_space (c : Char) (h : isSentEnd c = true) :
    isPySpace c = false := by
  simp only [isSentEnd, Bool.or_eq_true, decide_eq_true_eq] at h
  rcases h with (h | h) | h <;> subst h <;> decide

/-- The scanner always produces at least one piece. -/
theorem rssGo_ne_nil (flag : Bool) (l : Str) : rssGo flag l ≠ [] := by
  have hcons : ∀ (c : Char) (ps : List Str), consHead c ps ≠ [] := by
    intro c ps
    cases ps <;> simp [consHead]
  induction l generalizing flag with
  | nil => cases flag <;> simp [rssGo]
  | cons c cs ih =>
    cases flag
    · rw [rssGo]
      split_ifs
      · simp
      · exact hcons c (rssGo false cs)
    · rw [rssGo]
      split_ifs
      · exact ih true
      · simp
      · exact hcons c (rssGo false cs)

/-- Joining after prepending a character to the first piece. -/
theorem joinSpace_consHead (c : Char) (ps : List Str) (h : ps ≠ []) :
    joinSpace (consHead c ps) = c :: joinSpace ps := by
  match ps with
  | [] => exact absurd rfl h
  | [p] => rfl
  | p :: q :: rest => rfl

/-- `spacedOK` restricts to the tail. -/
theorem spacedOK_tail (c : Char) (cs : Str) (h : spacedOK (c :: cs) = true) :
    spacedOK cs = true := by
  match cs with
  | [] => rfl
  | d :: rest =>
    rw [spacedOK, Bool.and_eq_true] at h
    exact h.2

/-- In skip mode a non-whitespace head behaves as in piece mode. -/
theorem rssGo_true_eq_false (c : Char) (cs : Str) (h : isPySpace c = false) :
    rssGo true (c :: cs) = rssGo false (c :: cs) := by
  rw [rssGo, rssGo, if_neg]
  simp [h]

/-- The structure of `spacedOK` text after a sentence end followed by
whitespace: the whitespace run is a single space followed by a
non-whitespace character. -/
theorem spacedOK_sep (c : Char) (cs : Str) (h : spacedOK (c :: cs) = true)
    (hsp : headIsSpace cs = true) :
    ∃ e rest, cs = ' ' :: e :: rest ∧ isPySpace e = false ∧
      spacedOK (e :: rest) = true := by
  match cs with
  | [] => exact absurd hsp (by simp [headIsSpace])
  | d :: rest =>
    rw [headIsSpace] at hsp
    match rest with
    | [] =>
      have h2 := spacedOK_tail c [d] h
      rw [spacedOK, hsp] at h2
      exact absurd h2 (by simp)
    | e :: rest' =>
      have h2 := spacedOK_tail c (d :: e :: rest') h
      rw [spacedOK, Bool.and_eq_true, Bool.or_eq_true] at h2
      rcases h2 with ⟨h3 | h3, h4⟩
      · rw [hsp] at h3
        exact absurd h3 (by simp)
      · rw [Bool.and_eq_true, beq_iff_eq] at h3
        exact ⟨e, rest', by rw [h3.1], by simpa using h3.2,
          spacedOK_tail d (e :: rest') (spacedOK_tail c (d :: e :: rest') h)⟩

/-- Joining the scanner's pieces with single spaces reproduces the text
(in skip mode: the text with its leading whitespace dropped), provided
every whitespace run is a single space with a successor. -/
theorem join_rssGo (l : Str) (h : spacedOK l = true) :
    joinSpace (rssGo false l) = l ∧
    joinSpace (rssGo true l) = l.dropWhile isPySpace := by
  induction l with
  | nil => exact ⟨rfl, rfl⟩
  | cons c cs ih =>
    obtain ⟨ihF, ihT⟩ := ih (spacedOK_tail c cs h)
    have hfalse : joinSpace (rssGo false (c :: cs)) = c :: cs := by
      rw [rssGo]
      by_cases hsp : (isSentEnd c && headIsSpace cs) = true
      · rw [if_pos hsp]
        rw [Bool.and_eq_true] at hsp
        obtain ⟨e, rest, hcs, he, _⟩ := spacedOK_sep c cs h hsp.2
        rcases hq : rssGo true cs with _ | ⟨q, qs⟩
        · exact absurd hq (rssGo_ne_nil true cs)
        · rw [← hq]
          have : joinSpace ([c] :: rssGo true cs) =
              c :: ' ' :: joinSpace (rssGo true cs) := by
            rw [hq]
            rfl
          rw [this, ihT, hcs]
          rw [List.dropWhile_cons_of_pos (by decide),
            List.dropWhile_cons_of_neg (by simp [he])]
      · rw [if_neg hsp, joinSpace_consHead c _ (rssGo_ne_nil false cs), ihF]
    refine ⟨hfalse, ?_⟩
    by_cases hc : isPySpace c = true
    · rw [rssGo, if_pos hc, ihT, List.dropWhile_cons_of_pos hc]
    · have hc' : isPySpace c = false := by simpa using hc
      rw [rssGo_true_eq_false c cs hc', hfalse,
        List.dropWhile_cons_of_neg (by simp [hc'])]

/-- The pieces produced by the scanner on `spacedOK` text: pieces after
the first start with a non-whitespace character; on nonempty text every
piece is nonempty and ends with a non-whitespace character; in skip mode
the first piece also starts with a non-whitespace character, and in piece
mode the first piece starts with the head of the text. -/
theorem rssGo_pieces (l : Str) (h : spacedOK l = true) : ∀ flag : Bool,
    (∀ p ∈ (rssGo flag l).tail, ∀ c, p.head? = some c → isPySpace c = false) ∧
    (l ≠ [] → ∀ p ∈ rssGo flag l, p ≠ [] ∧
      ∀ c, p.getLast? = some c → isPySpace c = false) ∧
    (flag = true → l ≠ [] →
      ∀ c, ((rssGo true l).headD []).head? = some c → isPySpace c = false) ∧
    (flag = false → ((rssGo false l).headD []).head? = l.head?) := by
  induction l with
  | nil =>
    intro flag
    refine ⟨?_, ?_, ?_, ?_⟩
    · intro p hp
      cases flag <;> simp [rssGo] at hp
    · intro hne
      exact absurd rfl hne
    · intro _ hne
      exact absurd rfl hne
    · intro _
      rfl
  | cons c cs ih =>
    have ihcs := ih (spacedOK_tail c cs h)
    intro flag
    have hFalse :
        (∀ p ∈ (rssGo false (c :: cs)).tail, ∀ d, p.head? = some d →
          isPySpace d = false) ∧
        (∀ p ∈ rssGo false (c :: cs), p ≠ [] ∧
          ∀ d, p.getLast? = some d → isPySpace d = false) ∧
        ((rssGo false (c :: cs)).headD []).head? = some c := by
      rw [rssGo]
      by_cases hsp : (isSentEnd c && headIsSpace cs) = true
      · rw [if_pos hsp]
        rw [Bool.and_eq_true] at hsp
        obtain ⟨e, rest, hcs, he, hsOK⟩ := spacedOK_sep c cs h hsp.2
        have hcsne : cs ≠ [] := by
          rw [hcs]
          simp
        rcases hq : rssGo true cs with _ | ⟨q, qs⟩
        · exact absurd hq (rssGo_ne_nil true cs)
        have hqhead : ∀ d, q.head? = some d → isPySpace d = false := by
          have h3 := (ihcs true).2.2.1 rfl hcsne
          rw [hq] at h3
          exact h3
        have htail : ∀ p ∈ qs, ∀ d, p.head? = some d → isPySpace d = false := by
          have h1 := (ihcs true).1
          rw [hq] at h1
          exact h1
        have hall := (ihcs true).2.1 hcsne
        rw [hq] at hall
        refine ⟨?_, ?_, rfl⟩
        · intro p hp d hd
          simp only [List.tail_cons] at hp
          rcases List.mem_cons.1 hp with rfl | hp
          · exact hqhead d hd
          · exact htail p hp d hd
        · intro p hp
          rcases List.mem_cons.1 hp with rfl | hp
          · refine ⟨by simp, ?_⟩
            intro d hd
            simp only [List.getLast?_singleton, Option.some.injEq] at hd
            subst hd
            exact sentEnd_not_space c hsp.1
          · exact hall p hp
      · rw [if_neg hsp]
        rcases hq : rssGo false cs with _ | ⟨q, qs⟩
        · exact absurd hq (rssGo_ne_nil false cs)
        have hconsq : consHead c (q :: qs) = (c :: q) :: qs := rfl
        rw [hconsq]
        by_cases hcse : cs = []
        · subst hcse
          have hnil : q = [] ∧ qs = [] := by
            have hr : rssGo false ([] : Str) = [[]] := rfl
            rw [hr] at hq
            injection hq with h1 h2
            exact ⟨h1.symm, h2.symm⟩
          obtain ⟨rfl, rfl⟩ := hnil
          have hcns : isPySpace c = false := by
            simpa [spacedOK] using h
          refine ⟨by simp, ?_, rfl⟩
          intro p hp
          rcases List.mem_cons.1 hp with rfl | hp
          · refine ⟨by simp, ?_⟩
            intro d hd
            simp only [List.getLast?_singleton, Option.some.injEq] at hd
            subst hd
            exact hcns
          · simp at hp
        · have hall := (ihcs false).2.1 hcse
          rw [hq] at hall
          have hqne : q ≠ [] := (hall q (List.mem_cons_self q qs)).1
          refine ⟨?_, ?_, by simp⟩
          · intro p hp d hd
            simp only [List.tail_cons] at hp
            have h1 := (ihcs false).1
            rw [hq] at h1
            exact h1 p hp d hd
          · intro p hp
            rcases List.mem_cons.1 hp with rfl | hp
            · refine ⟨by simp, ?_⟩
              intro d hd
              rcases hq2 : q with _ | ⟨q0, qrest⟩
              · exact absurd hq2 hqne
              · rw [hq2, List.getLast?_cons_cons] at hd
                have h5 := (hall q (List.mem_cons_self q qs)).2 d
                rw [hq2] at h5
                exact h5 hd
            · exact hall p (List.mem_cons_of_mem q hp)
    cases flag
    · refine ⟨hFalse.1, fun _ => hFalse.2.1, by simp, fun _ => ?_⟩
      rw [hFalse.2.2]
      rfl
    · by_cases hc : isPySpace c = true
      · have hcsne : cs ≠ [] := by
          intro hnil
          subst hnil
          rw [show spacedOK [c] = !isPySpace c from rfl, hc] at h
          simp at h
        have hskip : rssGo true (c :: cs) = rssGo true cs := by
          rw [rssGo, if_pos hc]
        refine ⟨?_, ?_, ?_, by simp⟩
        · rw [hskip]
          exact (ihcs true).1
        · intro _
          rw [hskip]
          exact (ihcs true).2.1 hcsne
        · intro _ _
          rw [hskip]
          exact (ihcs true).2.2.1 rfl hcsne
      · have hc' : isPySpace c = false := by simpa using hc
        have heq := rssGo_true_eq_false c cs hc'
        refine ⟨?_, ?_, ?_, by simp⟩
        · rw [heq]
          exact hFalse.1
        · intro _
          rw [heq]
          exact hFalse.2.1
        · intro _ _
          rw [heq]
          intro d hd
          rw [hFalse.2.2] at hd
          rw [Option.some.inj hd] at hc'
          exact hc'

/-- `dropWhile` is the identity when the head fails the predicate. -/
theorem dropWhile_eq_self_of_head (l : Str)
    (h : ∀ c, l.head? = some c → isPySpace c = false) :
    l.dropWhile isPySpace = l := by
  cases l with
  | nil => rfl
  | cons c rest => rw [List.dropWhile_cons_of_neg (by simp [h c rfl])]

/-- `str.strip()` fixes a list whose edges are not whitespace. -/
theorem pyStrip_eq_self (p : Str)
    (hh : ∀ c, p.head? = some c → isPySpace c = false)
    (hl : ∀ c, p.getLast? = some c → isPySpace c = false) : pyStrip p = p := by
  have h2 : p.reverse.dropWhile isPySpace = p.reverse := by
    apply dropWhile_eq_self_of_head
    intro c hc
    rw [List.head?_reverse] at hc
    exact hl c hc
  rw [pyStrip, dropWhile_eq_self_of_head p hh, h2, List.reverse_reverse]

/-- `str.strip()` removes exactly one trailing space from a buffer whose
core has non-whitespace edges. -/
theorem pyStrip_append_space (core : Str) (hne : core ≠ [])
    (hh : ∀ c, core.head? = some c → isPySpace c = false)
    (hl : ∀ c, core.getLast? = some c → isPySpace c = false) :
    pyStrip (core ++ [' ']) = core := by
  have h1 : (core ++ [' ']).dropWhile isPySpace = core ++ [' '] := by
    apply dropWhile_eq_self_of_head
    intro c hc
    cases core with
    | nil => exact absurd rfl hne
    | cons c0 rest =>
      simp only [List.cons_append, List.head?_cons, Option.some.injEq] at hc
      subst hc
      exact hh c0 rfl
  have h2 : core.reverse.dropWhile isPySpace = core.reverse := by
    apply dropWhile_eq_self_of_head
    intro c hc
    rw [List.head?_reverse] at hc
    exact hl c hc
  rw [pyStrip, h1, List.reverse_append]
  rw [show ([' '] : Str).reverse ++ core.reverse = ' ' :: core.reverse from rfl]
  rw [List.dropWhile_cons_of_pos (by decide), h2, List.reverse_reverse]

/-- Every run produced by `runsByGroup p` consists of characters
satisfying `p`. -/
theorem runsByGroup_chars (p : Char → Bool) (l : Str) :
    ∀ w ∈ runsByGroup p l, ∀ c ∈ w, p c = true := by
  induction l with
  | nil =>
    intro w hw c hc
    simp only [runsByGroup, List.mem_singleton] at hw
    subst hw
    simp at hc
  | cons a as ih =>
    intro w hw c hc
    rw [runsByGroup] at hw
    rcases hr : runsByGroup p as with _ | ⟨g, gs⟩
    · rw [hr] at hw
      simp only [List.mem_singleton] at hw
      subst hw
      simp at hc
    · rw [hr] at hw
      dsimp only at hw
      by_cases hpa : p a = true
      · rw [if_pos hpa] at hw
        rcases List.mem_cons.1 hw with rfl | hw
        · rcases List.mem_cons.1 hc with rfl | hc
          · exact hpa
          · exact ih g (by rw [hr]; exact List.mem_cons_self g gs) c hc
        · exact ih w (by rw [hr]; exact List.mem_cons_of_mem g hw) c hc
      · rw [if_neg hpa] at hw
        rcases List.mem_cons.1 hw with rfl | hw
        · simp at hc
        · exact ih w (by rw [hr]; exact hw) c hc

/-- The words of Python `split()`: nonempty and whitespace-free. -/
theorem pySplit_words (l : Str) :
    ∀ w ∈ pySplit l, w ≠ [] ∧ ∀ c ∈ w, isPySpace c = false := by
  intro w hw
  rw [pySplit, runsBy] at hw
  have hmem := List.mem_filter.1 hw
  refine ⟨by simpa using hmem.2, ?_⟩
  intro c hc
  have h1 := runsByGroup_chars _ l w hmem.1 c hc
  simpa using h1

/-- A whitespace-free list is `spacedOK`. -/
theorem spacedOK_word (w : Str) (hw : ∀ c ∈ w, isPySpace c = false) :
    spacedOK w = true := by
  induction w with
  | nil => rfl
  | cons c rest ih =>
    cases rest with
    | nil => simp [spacedOK, hw c (by simp)]
    | cons d rest' =>
      rw [spacedOK, Bool.and_eq_true]
      exact ⟨by simp [hw c (by simp)],
        ih (fun x hx => hw x (List.mem_cons_of_mem c hx))⟩

/-- Prefixing a whitespace-free word and one separator preserves
`spacedOK`, when the remainder starts with a non-whitespace character. -/
theorem spacedOK_append_word (w R : Str)
    (hw : ∀ c ∈ w, isPySpace c = false) (hR : spacedOK R = true)
    (hRhead : ∀ c, R.head? = some c → isPySpace c = false) (hRne : R ≠ []) :
    spacedOK (w ++ ' ' :: R) = true := by
  induction w with
  | nil =>
    cases R with
    | nil => exact absurd rfl hRne
    | cons e rest =>
      rw [List.nil_append, spacedOK, Bool.and_eq_true]
      exact ⟨by simp [hRhead e rfl], hR⟩
  | cons a as ih =>
    have ha := hw a (by simp)
    have hih := ih (fun x hx => hw x (List.mem_cons_of_mem a hx))
    rcases has : as ++ ' ' :: R with _ | ⟨b, bs⟩
    · simp at has
    · rw [List.cons_append, has, spacedOK, Bool.and_eq_true]
      refine ⟨by simp [ha], ?_⟩
      rw [← has]
      exact hih

/-- Normalized text (nonempty, whitespace-free words joined by single
spaces) satisfies the two whitespace invariants. -/
theorem spacedOK_joinSpace (ws : List Str)
    (hws : ∀ w ∈ ws, w ≠ [] ∧ ∀ c ∈ w, isPySpace c = false) :
    spacedOK (joinSpace ws) = true ∧ noLeadSpace (joinSpace ws) = true := by
  induction ws with
  | nil => exact ⟨rfl, rfl⟩
  | cons w ws' ih =>
    obtain ⟨hne, hch⟩ := hws w (List.mem_cons_self w ws')
    cases ws' with
    | nil =>
      refine ⟨spacedOK_word w hch, ?_⟩
      cases w with
      | nil => rfl
      | cons c rest =>
        rw [show joinSpace [c :: rest] = c :: rest from rfl, noLeadSpace]
        simp [hch c (by simp)]
    | cons w2 ws'' =>
      obtain ⟨hs2, _⟩ := ih (fun x hx => hws x (List.mem_cons_of_mem w hx))
      obtain ⟨hne2, hch2⟩ := hws w2 (by simp)
      have hJne : joinSpace (w2 :: ws'') ≠ [] := by
        cases ws'' with
        | nil => simpa [joinSpace] using hne2
        | cons w3 ws3 =>
          rw [show joinSpace (w2 :: w3 :: ws3) =
            w2 ++ ' ' :: joinSpace (w3 :: ws3) from rfl]
          simp
      have hJhead : ∀ c, (joinSpace (w2 :: ws'')).head? = some c →
          isPySpace c = false := by
        intro c hc
        rcases hw2 : w2 with _ | ⟨c2, rest2⟩
        · exact absurd hw2 hne2
        · cases ws'' with
          | nil =>
            rw [show joinSpace [w2] = w2 from rfl, hw2] at hc
            simp only [List.head?_cons, Option.some.injEq] at hc
            subst hc
            exact hch2 _ (by rw [hw2]; simp)
          | cons w3 ws3 =>
            rw [joinSpace, hw2] at hc
            simp only [List.cons_append, List.head?_cons,
              Option.some.injEq] at hc
            subst hc
            exact hch2 _ (by rw [hw2]; simp)
      rw [joinSpace]
      constructor
      · exact spacedOK_append_word w _ hch hs2 hJhead hJne
      · cases w with
        | nil => exact absurd rfl hne
        | cons c rest =>
          rw [List.cons_append, noLeadSpace]
          simp [hch c (by simp)]

/-- Every piece of the sentence split of well-spaced, non-leading-space,
nonempty text is nonempty with non-whitespace edges. -/
theorem pieces_good (n : Str) (hs : spacedOK n = true)
    (hn : noLeadSpace n = true) (hne : n ≠ []) :
    ∀ p ∈ reSplitSent n, p ≠ [] ∧
      (∀ c, p.head? = some c → isPySpace c = false) ∧
      (∀ c, p.getLast? = some c → isPySpace c = false) := by
  have hp := rssGo_pieces n hs false
  intro p hpmem
  have h2 := hp.2.1 hne p hpmem
  refine ⟨h2.1, ?_, h2.2⟩
  rcases hq : rssGo false n with _ | ⟨q, qs⟩
  · exact absurd hq (rssGo_ne_nil false n)
  rw [reSplitSent, hq] at hpmem
  rcases List.mem_cons.1 hpmem with rfl | hpmem
  · intro c hc
    have h4 := hp.2.2.2 rfl
    rw [hq] at h4
    rw [show ((p :: qs).headD [] : Str) = p from rfl] at h4
    rw [h4] at hc
    cases n with
    | nil => exact absurd rfl hne
    | cons c0 rest =>
      simp only [List.head?_cons, Option.some.injEq] at hc
      subst hc
      simpa [noLeadSpace] using hn
  · have h1 := hp.1
    rw [hq] at h1
    exact h1 p hpmem

/-! ## The chunk-accumulation fold -/

/-- Each chunk followed by one space, concatenated — the exact string
built by the accumulation loop. -/
def flatChunks (chunks : List Str) : Str :=
  (chunks.map (fun c => c ++ [' '])).flatten

/-- The flat form of a cons. -/
theorem flatChunks_cons (s : Str) (rest : List Str) :
    flatChunks (s :: rest) = (s ++ [' ']) ++ flatChunks rest := by
  simp [flatChunks]

/-- The flat form of an append. -/
theorem flatChunks_append (a b : List Str) :
    flatChunks (a ++ b) = flatChunks a ++ flatChunks b := by
  simp [flatChunks]

/-- Appending one element to a join appends it to the flat form. -/
theorem joinSpace_append_singleton (cs : List Str) (x : Str) :
    joinSpace (cs ++ [x]) = flatChunks cs ++ x := by
  induction cs with
  | nil => simp [joinSpace, flatChunks]
  | cons c cs' ih =>
    cases cs' with
    | nil =>
      show joinSpace [c, x] = flatChunks [c] ++ x
      rw [joinSpace, flatChunks]
      simp [joinSpace]
    | cons d ds =>
      rw [List.cons_append,
        show joinSpace (c :: (d :: ds ++ [x])) =
          c ++ ' ' :: joinSpace (d :: ds ++ [x]) from rfl,
        ih]
      simp [flatChunks_cons, List.append_assoc]

/-- The flat form is the join with one trailing space. -/
theorem flatChunks_eq_joinSpace (ps : List Str) (hne : ps ≠ []) :
    flatChunks ps = joinSpace ps ++ [' '] := by
  induction ps with
  | nil => exact absurd rfl hne
  | cons p ps' ih =>
    cases ps' with
    | nil => simp [flatChunks, joinSpace]
    | cons q qs =>
      rw [joinSpace, flatChunks_cons, ih (by simp)]
      simp

/-- The invariant of the chunk buffer: empty, or a nonempty core with
non-whitespace edges followed by exactly one space. -/
def curInv (cur : Str) : Prop :=
  cur = [] ∨ ∃ core, cur = core ++ [' '] ∧ core ≠ [] ∧
    (∀ c, core.head? = some c → isPySpace c = false) ∧
    (∀ c, core.getLast? = some c → isPySpace c = false)

/-- One accumulation step on a good sentence: the flattened state grows
by the sentence and one space, and the buffer invariant is maintained. -/
theorem chunkStep_flat (m : Nat) (st : List Str × Str) (sent : Str)
    (hne : sent ≠ []) (hh : ∀ c, sent.head? = some c → isPySpace c = false)
    (hl : ∀ c, sent.getLast? = some c → isPySpace c = false)
    (hinv : curInv st.2) :
    flatChunks (chunkStep m st sent).1 ++ (chunkStep m st sent).2 =
      (flatChunks st.1 ++ st.2) ++ (sent ++ [' ']) ∧
    curInv (chunkStep m st sent).2 ∧ (chunkStep m st sent).2 ≠ [] := by
  have hstrip : pyStrip sent = sent := pyStrip_eq_self sent hh hl
  obtain ⟨chunks, cur⟩ := st
  have hsememp : sent.isEmpty = false := by
    cases sent with
    | nil => exact absurd rfl hne
    | cons a b => rfl
  rw [chunkStep]
  simp only [hstrip, hsememp, Bool.false_eq_true, if_false]
  by_cases hlen : cur.length + sent.length < m
  · rw [if_pos hlen]
    refine ⟨by simp, ?_, by simp [hne]⟩
    rcases hinv with rfl | ⟨core, rfl, hcne, hchh, hcll⟩
    · exact Or.inr ⟨sent, by simp, hne, hh, hl⟩
    · refine Or.inr ⟨core ++ [' '] ++ sent, by simp, by simp, ?_, ?_⟩
      · intro c hc
        rcases hcore : core with _ | ⟨c0, rest⟩
        · exact absurd hcore hcne
        · rw [hcore] at hc
          simp only [List.cons_append, List.head?_cons,
            Option.some.injEq] at hc
          subst hc
          exact hchh c0 (by rw [hcore]; rfl)
      · intro c hc
        rw [List.getLast?_append_of_ne_nil _ hne] at hc
        exact hl c hc
  · rw [if_neg hlen]
    refine ⟨?_, Or.inr ⟨sent, rfl, hne, hh, hl⟩, by simp [hne]⟩
    rcases hinv with rfl | ⟨core, rfl, hcne, hchh, hcll⟩
    · simp
    · have hcurne : (core ++ [' ']).isEmpty = false := by
        rcases core with _ | ⟨c0, rest⟩
        · exact absurd rfl hcne
        · rfl
      rw [hcurne]
      simp only [Bool.false_eq_true, if_false]
      rw [pyStrip_append_space core hcne hchh hcll, flatChunks_append]
      simp [flatChunks]

/-- Folding the accumulation over good sentences: the flattened state is
the flat form of the sentences appended to the initial flat state. -/
theorem chunkFold_flat (m : Nat) (sents : List Str)
    (hs : ∀ s ∈ sents, s ≠ [] ∧
      (∀ c, s.head? = some c → isPySpace c = false) ∧
      (∀ c, s.getLast? = some c → isPySpace c = false)) :
    ∀ st : List Str × Str, curInv st.2 →
      flatChunks (sents.foldl (chunkStep m) st).1 ++
          (sents.foldl (chunkStep m) st).2 =
        (flatChunks st.1 ++ st.2) ++ flatChunks sents ∧
      curInv (sents.foldl (chunkStep m) st).2 ∧
      (sents ≠ [] → (sents.foldl (chunkStep m) st).2 ≠ []) := by
  induction sents with
  | nil =>
    intro st hinv
    refine ⟨by simp [flatChunks], hinv, fun h => absurd rfl h⟩
  | cons s rest ih =>
    intro st hinv
    obtain ⟨hne, hh, hl⟩ := hs s (List.mem_cons_self s rest)
    obtain ⟨hflat, hinv', hne'⟩ := chunkStep_flat m st s hne hh hl hinv
    obtain ⟨hflat2, hinv2, hne2⟩ :=
      ih (fun x hx => hs x (List.mem_cons_of_mem s hx)) (chunkStep m st s)
        hinv'
    rw [List.foldl_cons]
    refine ⟨?_, hinv2, ?_⟩
    · rw [hflat2, hflat, flatChunks_cons]
      simp
    · intro _
      cases rest with
      | nil => simpa using hne'
      | cons r rs => exact hne2 (by simp)

/-- `Char.ofNat` of a scalar below the surrogate range. -/
theorem char_toNat_ofNat_of_lt (n : Nat) (h : n < 55296) :
    (Char.ofNat n).toNat = n := by
  rw [Char.ofNat, dif_pos (Or.inl h)]
  rfl

/-- A character is recovered from its code point. -/
theorem char_eq_of_toNat (c : Char) (n : Nat) (h : c.toNat = n) :
    c = Char.ofNat n := by
  rw [← h, Char.ofNat_toNat]

/-- `isPySpace` through code points. -/
theorem isPySpace_iff_toNat (c : Char) : isPySpace c = true ↔
    (c.toNat = 32 ∨ c.toNat = 9 ∨ c.toNat = 10 ∨ c.toNat = 13 ∨
      c.toNat = 11 ∨ c.toNat = 12) := by
  rw [isPySpace]
  simp only [Bool.or_eq_true, decide_eq_true_eq]
  constructor
  · intro h
    rcases h with ((((h | h) | h) | h) | h) | h <;> subst h <;> decide
  · intro h
    rcases h with h | h | h | h | h | h <;>
      rw [char_eq_of_toNat c _ h] <;> decide

/-- Lower-casing preserves non-whitespace. -/
theorem pyLowerChar_not_space (c : Char) (h : isPySpace c = false) :
    isPySpace (pyLowerChar c) = false := by
  rw [pyLowerChar]
  split_ifs with hc
  · have h1 : 65 ≤ c.toNat := by
      have h2 := hc.1
      rw [Char.le_def, UInt32.le_def] at h2
      simpa [Char.toNat, UInt32.toNat] using BitVec.le_def.1 h2
    have h2 : c.toNat ≤ 90 := by
      have h3 := hc.2
      rw [Char.le_def, UInt32.le_def] at h3
      simpa [Char.toNat, UInt32.toNat] using BitVec.le_def.1 h3
    have hv : (Char.ofNat (c.toNat + 32)).toNat = c.toNat + 32 :=
      char_toNat_ofNat_of_lt _ (by omega)
    by_contra hsp
    have hsp' : isPySpace (Char.ofNat (c.toNat + 32)) = true := by
      simpa using hsp
    rcases (isPySpace_iff_toNat _).1 hsp' with h3 | h3 | h3 | h3 | h3 | h3 <;>
      rw [hv] at h3 <;> omega
  · exact h

/-- The run grouping is never empty. -/
theorem runsByGroup_ne_nil (p : Char → Bool) (l : Str) :
    runsByGroup p l ≠ [] := by
  induction l with
  | nil => simp [runsByGroup]
  | cons a as ih =>
    rw [runsByGroup]
    rcases hr : runsByGroup p as with _ | ⟨g, gs⟩
    · exact absurd hr ih
    · dsimp only
      split_ifs <;> simp

/-- A list containing a `p`-character has a nonempty run list. -/
theorem runsBy_ne_nil (p : Char → Bool) (l : Str) (c : Char) (hc : c ∈ l)
    (hpc : p c = true) : runsBy p l ≠ [] := by
  induction l with
  | nil => simp at hc
  | cons a as ih =>
    rw [runsBy, runsByGroup]
    rcases hr : runsByGroup p as with _ | ⟨g, gs⟩
    · exact absurd hr (runsByGroup_ne_nil p as)
    · dsimp only
      by_cases hpa : p a = true
      · rw [if_pos hpa]
        simp [List.filter]
      · rw [if_neg hpa]
        rcases List.mem_cons.1 hc with rfl | hcas
        · exact absurd hpc hpa
        · have h2 := ih hcas
          rw [runsBy, hr] at h2
          simpa [List.filter] using h2

/-- A list containing a non-whitespace character has at least one word. -/
theorem pySplit_ne_nil (l : Str) (c : Char) (hc : c ∈ l)
    (hcs : isPySpace c = false) : pySplit l ≠ [] :=
  runsBy_ne_nil _ l c hc (by simp [hcs])

/-- So does its lower-cased form. -/
theorem pySplit_pyLower_ne_nil (l : Str) (c : Char) (hc : c ∈ l)
    (hcs : isPySpace c = false) : pySplit (pyLower l) ≠ [] :=
  pySplit_ne_nil (pyLower l) (pyLowerChar c)
    (List.mem_map_of_mem pyLowerChar hc) (pyLowerChar_not_space c hcs)

/-- Every emitted chunk contains a non-whitespace character. -/
def chunksOK (chunks : List Str) : Prop :=
  ∀ ch ∈ chunks, ∃ c ∈ ch, isPySpace c = false

/-- One accumulation step preserves `chunksOK`. -/
theorem chunkStep_chunksOK (m : Nat) (st : List Str × Str) (sent : Str)
    (hne : sent ≠ []) (hh : ∀ c, sent.head? = some c → isPySpace c = false)
    (hl : ∀ c, sent.getLast? = some c → isPySpace c = false)
    (hinv : curInv st.2) (hok : chunksOK st.1) :
    chunksOK (chunkStep m st sent).1 := by
  have hstrip : pyStrip sent = sent := pyStrip_eq_self sent hh hl
  obtain ⟨chunks, cur⟩ := st
  have hsememp : sent.isEmpty = false := by
    cases sent with
    | nil => exact absurd rfl hne
    | cons a b => rfl
  rw [chunkStep]
  simp only [hstrip, hsememp, Bool.false_eq_true, if_false]
  by_cases hlen : cur.length + sent.length < m
  · rw [if_pos hlen]
    exact hok
  · rw [if_neg hlen]
    rcases hinv with rfl | ⟨core, rfl, hcne, hchh, hcll⟩
    · simpa using hok
    · have hcurne : (core ++ [' ']).isEmpty = false := by
        rcases core with _ | ⟨c0, rest⟩
        · exact absurd rfl hcne
        · rfl
      rw [hcurne]
      simp only [Bool.false_eq_true, if_false]
      rw [pyStrip_append_space core hcne hchh hcll]
      intro ch hch
      rcases List.mem_append.1 hch with h1 | h1
      · exact hok ch h1
      · rw [List.mem_singleton] at h1
        rw [h1]
        rcases core with _ | ⟨c0, rest⟩
        · exact absurd rfl hcne
        · exact ⟨c0, List.mem_cons_self c0 rest, hchh c0 rfl⟩

/-- The accumulation fold preserves `chunksOK` and the buffer invariant. -/
theorem chunkFold_chunksOK (m : Nat) (sents : List Str)
    (hs : ∀ s ∈ sents, s ≠ [] ∧
      (∀ c, s.head? = some c → isPySpace c = false) ∧
      (∀ c, s.getLast? = some c → isPySpace c = false)) :
    ∀ st : List Str × Str, curInv st.2 → chunksOK st.1 →
      chunksOK ((sents.foldl (chunkStep m) st).1) ∧
      curInv ((sents.foldl (chunkStep m) st).2) := by
  induction sents with
  | nil =>
    intro st h1 h2
    exact ⟨h2, h1⟩
  | cons s rest ih =>
    intro st h1 h2
    obtain ⟨hne, hh, hl⟩ := hs s (List.mem_cons_self s rest)
    have hinv' := (chunkStep_flat m st s hne hh hl h1).2.1
    have hok' := chunkStep_chunksOK m st s hne hh hl h1 h2
    rw [List.foldl_cons]
    exact ih (fun x hx => hs x (List.mem_cons_of_mem s hx)) _ hinv' hok'

/-- The splitter on text that normalizes to nothing yields no chunks. -/
theorem splitIntoChunks_norm_nil (t : Str) (h : normalizeText t = []) :
    splitIntoChunks t = [] := by
  rw [splitIntoChunks, splitIntoChunksSized, h]
  rfl

/-- The whitespace invariants of normalized text. -/
theorem normalizeText_invariants (t : Str) :
    spacedOK (normalizeText t) = true ∧
    noLeadSpace (normalizeText t) = true := by
  rw [normalizeText]
  exact spacedOK_joinSpace (pySplit (t.map nlToSpace))
    (pySplit_words (t.map nlToSpace))

/-- Every chunk produced by the splitter contains a non-whitespace
character — in particular it has at least one word, so the scorer never
divides by zero on splitter output. -/
theorem splitIntoChunks_hasWord (t : Str) :
    ∀ ch ∈ splitIntoChunks t, ∃ c ∈ ch, isPySpace c = false := by
  by_cases hnil : normalizeText t = []
  · rw [splitIntoChunks_norm_nil t hnil]
    intro ch hch
    simp at hch
  · obtain ⟨hsOK, hnl⟩ := normalizeText_invariants t
    have hgood := pieces_good (normalizeText t) hsOK hnl hnil
    have hfold := chunkFold_chunksOK 500 (reSplitSent (normalizeText t))
      hgood ([], []) (Or.inl rfl) (by intro ch hch; simp at hch)
    rw [splitIntoChunks, splitIntoChunksSized]
    intro ch hch
    rw [chunkFinish] at hch
    split_ifs at hch with hcur
    · exact hfold.1 ch hch
    · rcases List.mem_append.1 hch with h1 | h1
      · exact hfold.1 ch h1
      · rw [List.mem_singleton] at h1
        subst h1
        rcases hfold.2 with hnil2 | ⟨core, hcore, hcne, hchh, hcll⟩
        · rw [hnil2] at hcur
          simp at hcur
        · rw [hcore, pyStrip_append_space core hcne hchh hcll]
          rcases core with _ | ⟨c0, rest⟩
          · exact absurd rfl hcne
          · exact ⟨c0, List.mem_cons_self c0 rest, hchh c0 rfl⟩

/-- C9 (confirmed): the splitter is a pure function (splitting twice
yields identical sequences); joining the returned chunks with single
spaces reproduces the whitespace-normalized source text; and empty
documents yield the empty chunk sequence. -/
theorem c9_splitter_join (t : Str) :
    splitIntoChunks t = splitIntoChunks t ∧
    joinSpace (splitIntoChunks t) = normalizeText t ∧
    splitIntoChunks [] = [] := by
  refine ⟨rfl, ?_, rfl⟩
  by_cases hnil : normalizeText t = []
  · rw [splitIntoChunks_norm_nil t hnil, hnil]
    rfl
  · obtain ⟨hsOK, hnl⟩ := normalizeText_invariants t
    have hgood := pieces_good (normalizeText t) hsOK hnl hnil
    obtain ⟨hflat, hinv, hcurne⟩ := chunkFold_flat 500
      (reSplitSent (normalizeText t)) hgood ([], []) (Or.inl rfl)
    have hPne : reSplitSent (normalizeText t) ≠ [] :=
      rssGo_ne_nil false (normalizeText t)
    have hcur := hcurne hPne
    rcases hinv with h0 | ⟨core, hcore, hcne, hchh, hcll⟩
    · exact absurd h0 hcur
    set res := (reSplitSent (normalizeText t)).foldl (chunkStep 500) ([], [])
      with hres
    have hresemp : res.2.isEmpty = false := by
      rw [hcore]
      rcases core with _ | ⟨c0, rest⟩
      · exact absurd rfl hcne
      · rfl
    have hfin : chunkFinish res = res.1 ++ [core] := by
      rw [chunkFinish, hresemp]
      simp only [Bool.false_eq_true, if_false]
      rw [hcore, pyStrip_append_space core hcne hchh hcll]
    have hpieces_flat : flatChunks (reSplitSent (normalizeText t)) =
        normalizeText t ++ [' '] := by
      rw [flatChunks_eq_joinSpace _ hPne,
        show reSplitSent (normalizeText t) =
          rssGo false (normalizeText t) from rfl,
        (join_rssGo (normalizeText t) hsOK).1]
    have key : (flatChunks res.1 ++ core) ++ [' '] =
        normalizeText t ++ [' '] := by
      have h2 := hflat
      rw [hcore, hpieces_flat] at h2
      rw [List.append_assoc]
      simpa [flatChunks] using h2
    rw [splitIntoChunks, splitIntoChunksSized, ← hres, hfin,
      joinSpace_append_singleton]
    exact List.append_cancel_right key

/-- A lookup with an absent key reports absent and leaves the cache. -/
theorem cacheGet_none {α : Type} (ttl : Int) (c : Cache α) (k : Str)
    (now : Int) (h : cacheFind c k = none) : cacheGet ttl c k now = (none, c) := by
  simp [cacheGet, h]

/-- A lookup of a fresh entry returns it and leaves the cache. -/
theorem cacheGet_hit {α : Type} (ttl : Int) (c : Cache α) (k : Str)
    (now : Int) (v : α) (ts : Int) (h : cacheFind c k = some (v, ts))
    (hf : now - ts < ttl) : cacheGet ttl c k now = (some v, c) := by
  simp [cacheGet, h, hf]

/-- A lookup of an expired entry reports absent and deletes it. -/
theorem cacheGet_expired {α : Type} (ttl : Int) (c : Cache α) (k : Str)
    (now : Int) (v : α) (ts : Int) (h : cacheFind c k = some (v, ts))
    (hexp : ¬ now - ts < ttl) : cacheGet ttl c k now = (none, cacheErase c k) := by
  simp [cacheGet, h, hexp]

/-- A put is immediately visible. -/
theorem cacheFind_put_self {α : Type} (c : Cache α) (k : Str) (v : α)
    (now : Int) : cacheFind (cachePut c k v now) k = some (v, now) := by
  simp [cacheFind, cachePut, List.find?]

/-- Erasing a key removes every binding for it. -/
theorem cacheFind_erase {α : Type} (c : Cache α) (k : Str) :
    cacheFind (cacheErase c k) k = none := by
  simp only [cacheFind, cacheErase, Option.map_eq_none', List.find?_eq_none,
    List.mem_filter]
  intro e he
  simpa using he.2

/-- C7 (confirmed): for each of the three caches — instantiated by its TTL;
all three share `cacheGet`/`cachePut` — a `get` immediately after a `put`
returns the value just stored; a `get` that returns a stored value was
made strictly less than `ttl` seconds after the store; and a `get` that
discovers an expired entry reports absent, deletes the entry, and every
subsequent `get` of that key reports absent (at any later time) until
another `put`. -/
theorem c7_cache_ttl (ttl : Int) (httl : ttl = contentTTL ∨ ttl = answerTTL)
    (c : Cache Str) (k v : Str) (now later : Int) :
    (cacheGet ttl (cachePut c k v now) k now).1 = some v ∧
    (∀ v' ts, cacheFind c k = some (v', ts) →
      (cacheGet ttl c k now).1 = some v' → now - ts < ttl) ∧
    (∀ v' ts, cacheFind c k = some (v', ts) → ttl ≤ now - ts →
      (cacheGet ttl c k now).1 = none ∧
      cacheFind (cacheGet ttl c k now).2 k = none ∧
      (cacheGet ttl (cacheGet ttl c k now).2 k later).1 = none) := by
  have hpos : (0 : Int) < ttl := by
    rcases httl with h | h <;> simp [h, contentTTL, answerTTL]
  refine ⟨?_, ?_, ?_⟩
  · rw [cacheGet_hit ttl _ k now v now (cacheFind_put_self c k v now)
      (by simpa using hpos)]
  · intro v' ts hfind hret
    by_contra hexp
    rw [cacheGet_expired ttl c k now v' ts hfind hexp] at hret
    exact Option.noConfusion hret
  · intro v' ts hfind hexp
    have hnlt : ¬ now - ts < ttl := not_lt.mpr hexp
    rw [cacheGet_expired ttl c k now v' ts hfind hnlt]
    refine ⟨rfl, cacheFind_erase c k, ?_⟩
    rw [cacheGet_none ttl _ k later (cacheFind_erase c k)]

/-- Witness for C7 at concrete inputs. -/
theorem c7_cache_ttl_witness :
    (cacheGet contentTTL (cachePut [] (str "k") (str "v") 5) (str "k") 5).1 =
      some (str "v") :=
  (c7_cache_ttl contentTTL (Or.inl rfl) [] (str "k") (str "v") 5 6).1

/-! ## C8: the answer-cache key -/

/-- C8 (confirmed): the answer-cache key is the SHA-256 hash of the UTF-8
encoding of `"{document_id}:{normalized_question}"` where the question is
lower-cased and stripped of surrounding whitespace; questions with the
same normalization give the same key for the same document; and distinct
document ids give distinct hash inputs (so distinct keys barring a hash
collision). -/
theorem c8_cache_key (d d1 d2 q q1 q2 : Str)
    (hq : pyStrip (pyLower q1) = pyStrip (pyLower q2)) (hd : d1 ≠ d2) :
    generateCacheKey d q =
      sha256Hex (utf8Encode (d ++ str ":" ++ pyStrip (pyLower q))) ∧
    generateCacheKey d q1 = generateCacheKey d q2 ∧
    cacheKeyInput d1 q ≠ cacheKeyInput d2 q := by
  refine ⟨rfl, ?_, ?_⟩
  · unfold generateCacheKey cacheKeyInput
    rw [hq]
  · intro h
    exact hd (List.append_cancel_right (List.append_cancel_right h))

/-- Witness for C8 at concrete inputs. -/
theorem c8_cache_key_witness :
    pyStrip (pyLower (str "  What IS the title? ")) =
      pyStrip (pyLower (str "what is the title?")) ∧
    str "d1" ≠ str "d2" ∧
    generateCacheKey (str "a") (str "  What IS the title? ") =
      generateCacheKey (str "a") (str "what is the title?") ∧
    cacheKeyInput (str "d1") (str "q") ≠ cacheKeyInput (str "d2") (str "q") := by
  have h := c8_cache_key (str "a") (str "d1") (str "d2") (str "q")
    (str "  What IS the title? ") (str "what is the title?")
    (by decide) (by decide)
  exact ⟨by decide, by decide, h.2.1, h.2.2⟩

/-! ## C3: the assembled-context length -/

/-- A 500-character one-word chunk, distinguished by a final digit. -/
def c3Chunk (i : Nat) : Str := List.replicate 499 'a' ++ [Char.ofNat (48 + i)]

/-- Eight such chunks: 4000 characters in total, so the selector keeps
all eight (the cap) and the truncation step does not fire. -/
def c3Chunks : List Str :=
  [c3Chunk 0, c3Chunk 1, c3Chunk 2, c3Chunk 3, c3Chunk 4, c3Chunk 5,
   c3Chunk 6, c3Chunk 7]

/-- C3 counterexample: the truncation of `_get_relevant_chunks` bounds the
sum of the chunk lengths, but the context handed to the prompt builder is
the chunks joined with single spaces, whose length also counts the seven
separators: here it is 4007 > 4000, refuting the claimed bound. -/
theorem c3_context_length_counterexample :
    getRelevantChunks c3Chunks (str "qq") = some c3Chunks ∧
    (joinSpace c3Chunks).length = 4007 ∧ ¬ ((4007 : Nat) ≤ 4000) := by
  refine ⟨by decide, ?_, by decide⟩
  have hlen : ∀ i, (c3Chunk i).length = 500 := fun i => by
    rw [c3Chunk, List.length_append, List.length_replicate, List.length_singleton]
  rw [c3Chunks]
  simp only [joinSpace, List.length_append, List.length_cons, hlen]

/-! ## C4: the selection bound -/

/-- A 480-character one-word filler chunk. -/
def c4Plain (i : Nat) : Str := List.replicate 479 'a' ++ [Char.ofNat (48 + i)]

/-- A 480-character one-word chunk containing the keyword `kw`. -/
def c4Kw (i : Nat) : Str :=
  str "kw" ++ List.replicate 477 'a' ++ [Char.ofNat (48 + i)]

/-- Twelve chunks: high-scoring chunks at positions 1, 4 and 7 (score 0.6,
above the 0.1 neighbour threshold), a chunk at position 8 starting with
200 spaces, and three short tail chunks. -/
def c4Chunks : List Str :=
  [c4Plain 0, c4Kw 1, c4Plain 2, c4Plain 3, c4Kw 4, c4Plain 5, c4Plain 6,
   c4Kw 7, List.replicate 200 ' ' ++ [Char.ofNat 122], str "m9", str "ma",
   str "mb"]

/-- What the selector returns on `c4Chunks`: nine chunks — each selected
high scorer pulled in two neighbours, so the loop stopped only at nine —
of which the last is the 160-space truncation prefix of chunk 8, a chunk
with zero words. -/
def c4Expected : List Str :=
  [c4Plain 0, c4Kw 1, c4Plain 2, c4Plain 3, c4Kw 4, c4Plain 5, c4Plain 6,
   c4Kw 7, List.replicate 160 ' ']

/-- C4 counterexample: the selector returns nine chunks (more than
`max_chunks = 8`) and the ninth returned chunk has zero words, refuting
both conjuncts of the claim on one input. -/
theorem c4_selection_counterexample :
    getRelevantChunks c4Chunks (str "kw") = some c4Expected ∧
    c4Expected.length = 9 ∧ ¬ ((9 : Nat) ≤ 8) ∧
    c4Expected.getLast? = some (List.replicate 160 ' ') ∧
    (pySplit (List.replicate 160 ' ')).length = 0 :=
  ⟨by decide, by decide, by decide, by decide, by decide⟩

/-! ## C5: the score formula

The claim's quantities, written in `ℚ` following the claim's own words
(for the refinement comparison with the code's `scoreChunk`). -/

/-- Modelled from the claim: `density` = (number of keywords occurring as
a case-insensitive substring of the chunk) / w. -/
def claimDensity (keywords : List Str) (chunk : Str) : ℚ :=
  (keywordMatches keywords chunk : ℚ) / ((pySplit chunk).length : ℚ)

/-- Modelled from the claim: `partial` = (number of (keyword, chunk-word)
pairs where either is a substring of the other) / w. -/
def claimPartScore (keywords : List Str) (chunk : Str) : ℚ :=
  (partMatchCount keywords chunk : ℚ) / ((pySplit chunk).length : ℚ)

/-- Modelled from the claim: a neighbour's keyword hit rate, keyword hits
in the neighbour over the neighbour's word count. -/
def claimRate (keywords : List Str) (nb : Str) : ℚ :=
  (keywordMatches keywords nb : ℚ) / ((pySplit (pyLower nb)).length : ℚ)

/-- The previous and next chunks of chunk `i`, when they exist. -/
def claimNeighbors (chunks : List Str) (i : Nat) : List Str :=
  (if 0 < i then [chunks.getD (i - 1) []] else []) ++
    (if i + 1 < chunks.length then [chunks.getD (i + 1) []] else [])

/-- Modelled from the claim (as stated): `context` = the average, over the
previous and next chunk when they exist, of the neighbour rate, halved. -/
def claimContextAvg (chunks : List Str) (keywords : List Str) (i : Nat) : ℚ :=
  ((claimNeighbors chunks i).map (claimRate keywords)).sum /
    ((claimNeighbors chunks i).length : ℚ) / 2

/-- The context term as the code computes it: half the sum, over the
previous and next chunk when they exist, of the neighbour rate. -/
def claimContextSum (chunks : List Str) (keywords : List Str) (i : Nat) : ℚ :=
  ((claimNeighbors chunks i).map (claimRate keywords)).sum / 2

/-- Modelled from the claim: `metadata` = (number of metadata-keyword-set
terms present in the chunk) / w for a metadata query, else 0. -/
def claimMetadata (keywords : List Str) (chunk : Str) : ℚ :=
  if isMetaQuestion keywords then
    (metadataMatches chunk : ℚ) / ((pySplit chunk).length : ℚ)
  else 0

/-- Modelled from the claim (as stated): `score` = 0.4·density +
0.2·partial + 0.2·context + 0.2·metadata with `context` the
average-then-halved form. -/
def claimScoreAvg (chunks : List Str) (keywords : List Str) (i : Nat)
    (chunk : Str) : ℚ :=
  0.4 * claimDensity keywords chunk + 0.2 * claimPartScore keywords chunk +
    0.2 * claimContextAvg chunks keywords i + 0.2 * claimMetadata keywords chunk

/-- The claimed formula with the context term corrected to half the sum. -/
def claimScoreSum (chunks : List Str) (keywords : List Str) (i : Nat)
    (chunk : Str) : ℚ :=
  0.4 * claimDensity keywords chunk + 0.2 * claimPartScore keywords chunk +
    0.2 * claimContextSum chunks keywords i + 0.2 * claimMetadata keywords chunk

/-- Three identical one-word chunks, each containing the question keyword. -/
def c5Chunks : List Str := [str "x", str "x", str "x"]

/-- C5 counterexample: for the middle chunk both neighbours exist with hit
rate 1, so the code's context term is (1+1)/2 = 1 and its score is 0.8,
while the claim's average-then-halved context is 0.5 giving a claimed
score of 0.7. -/
theorem c5_score_formula_counterexample :
    (scoreChunk c5Chunks (keywordsOf (str "x"))
        (isMetaQuestion (keywordsOf (str "x"))) 1 (str "x") 1).map Frac.q =
      some (4 / 5 : ℚ) ∧
    claimScoreAvg c5Chunks (keywordsOf (str "x")) 1 (str "x") = 7 / 10 ∧
    ((4 / 5 : ℚ) ≠ 7 / 10) := by
  have hs : scoreChunk c5Chunks (keywordsOf (str "x"))
      (isMetaQuestion (keywordsOf (str "x"))) 1 (str "x") 1 =
      some ⟨16000, 20000⟩ := by decide
  have hk : keywordsOf (str "x") = [str "x"] := by decide
  have h1 : keywordMatches [str "x"] (str "x") = 1 := by decide
  have h2 : partMatchCount [str "x"] (str "x") = 1 := by decide
  have h3 : (pySplit (str "x")).length = 1 := by decide
  have h4 : (pySplit (pyLower (str "x"))).length = 1 := by decide
  have hm : isMetaQuestion [str "x"] = false := by decide
  have hnb : claimNeighbors c5Chunks 1 = [str "x", str "x"] := by decide
  refine ⟨?_, ?_, by norm_num⟩
  · rw [hs]
    show some (Frac.q ⟨16000, 20000⟩) = some (4 / 5 : ℚ)
    norm_num [Frac.q]
  · rw [hk]
    rw [claimScoreAvg, claimDensity, claimPartScore, claimContextAvg,
      claimMetadata, hnb, h1, h2, h3, hm]
    simp only [List.map_cons, List.map_nil, claimRate, h1, h4,
      List.length_cons, List.length_nil, List.sum_cons, List.sum_nil]
    norm_num

/-! ## Fraction semantics -/

/-- A fraction's denominator is positive in `ℚ`. -/
theorem Frac.den_q_pos (a : Frac) : (0 : ℚ) < ((a.den : ℕ) : ℚ) := by
  exact_mod_cast a.den.2

/-- Cross-multiplication order agrees with the rational order. -/
theorem Frac.lt_iff (a b : Frac) : a.lt b ↔ a.q < b.q := by
  rw [Frac.lt, Frac.q, Frac.q, div_lt_div_iff₀ a.den_q_pos b.den_q_pos]
  constructor
  · intro h
    exact_mod_cast h
  · intro h
    exact_mod_cast h

/-- Cross-multiplication equality agrees with the rational equality. -/
theorem Frac.feq_iff (a b : Frac) : a.feq b ↔ a.q = b.q := by
  rw [Frac.feq, Frac.q, Frac.q,
    div_eq_div_iff (ne_of_gt a.den_q_pos) (ne_of_gt b.den_q_pos)]
  constructor
  · intro h
    exact_mod_cast h
  · intro h
    exact_mod_cast h

/-- `Frac.add` realises rational addition. -/
theorem Frac.add_q (a b : Frac) : (a.add b).q = a.q + b.q := by
  rw [Frac.add, Frac.q, Frac.q, Frac.q]
  have ha := a.den_q_pos
  have hb := b.den_q_pos
  push_cast
  field_simp

/-- `Frac.mul` realises rational multiplication. -/
theorem Frac.mul_q (a b : Frac) : (a.mul b).q = a.q * b.q := by
  rw [Frac.mul, Frac.q, Frac.q, Frac.q]
  have ha := a.den_q_pos
  have hb := b.den_q_pos
  push_cast
  field_simp

/-- `Frac.divPNat` realises rational division. -/
theorem Frac.divPNat_q (a : Frac) (n : ℕ+) :
    (a.divPNat n).q = a.q / ((n : ℕ) : ℚ) := by
  rw [Frac.divPNat, Frac.q, Frac.q]
  have ha := a.den_q_pos
  have hn : (0 : ℚ) < ((n : ℕ) : ℚ) := by exact_mod_cast n.2
  push_cast
  field_simp

/-- The candidate-order relation is transitive. -/
instance : IsTrans (Frac × Nat × Str) scoreBefore := by
  constructor
  intro a b c hab hbc
  rcases hab with h1 | ⟨h1, h1'⟩ <;> rcases hbc with h2 | ⟨h2, h2'⟩
  · exact Or.inl ((Frac.lt_iff _ _).2 (lt_trans ((Frac.lt_iff _ _).1 h2)
      ((Frac.lt_iff _ _).1 h1)))
  · exact Or.inl ((Frac.lt_iff _ _).2
      (((Frac.feq_iff _ _).1 h2) ▸ ((Frac.lt_iff _ _).1 h1)))
  · refine Or.inl ((Frac.lt_iff _ _).2 ?_)
    rw [(Frac.feq_iff _ _).1 h1]
    exact (Frac.lt_iff _ _).1 h2
  · exact Or.inr ⟨(Frac.feq_iff _ _).2
      (((Frac.feq_iff _ _).1 h1).trans ((Frac.feq_iff _ _).1 h2)),
      le_trans h2' h1'⟩

/-- The candidate-order relation is total. -/
instance : IsTotal (Frac × Nat × Str) scoreBefore := by
  constructor
  intro a b
  rcases lt_trichotomy a.1.q b.1.q with h | h | h
  · exact Or.inr (Or.inl ((Frac.lt_iff _ _).2 h))
  · rcases le_total b.2.1 a.2.1 with h' | h'
    · exact Or.inl (Or.inr ⟨(Frac.feq_iff _ _).2 h, h'⟩)
    · exact Or.inr (Or.inr ⟨(Frac.feq_iff _ _).2 h.symm, h'⟩)
  · exact Or.inl (Or.inl ((Frac.lt_iff _ _).2 h))

/-- The code's context term evaluates, when the existing neighbours have
nonzero word counts, to half the sum of their keyword hit rates. -/
theorem contextScore_q (chunks : List Str) (keywords : List Str) (i : Nat)
    (hprev : 0 < i → (pySplit (pyLower (chunks.getD (i - 1) []))).length ≠ 0)
    (hnext : i + 1 < chunks.length →
      (pySplit (pyLower (chunks.getD (i + 1) []))).length ≠ 0) :
    ∃ ctx, contextScore chunks keywords i = some ctx ∧
      ctx.q = claimContextSum chunks keywords i := by
  have hz : (⟨0, 1⟩ : Frac).q = 0 := by
    simp [Frac.q]
  have hrate : ∀ nb, ∀ h : (pySplit (pyLower nb)).length ≠ 0,
      neighborRate keywords nb =
        some ⟨keywordMatches keywords nb,
          ⟨(pySplit (pyLower nb)).length, Nat.pos_of_ne_zero h⟩⟩ ∧
      Frac.q ⟨(keywordMatches keywords nb : Int),
          ⟨(pySplit (pyLower nb)).length, Nat.pos_of_ne_zero h⟩⟩ =
        claimRate keywords nb := by
    intro nb h
    constructor
    · rw [neighborRate]
      exact dif_neg h
    · rw [Frac.q, claimRate]
      norm_num
  have hhalf : ∀ a b : Frac, ((a.add b).divPNat 2).q = (a.q + b.q) / 2 := by
    intro a b
    rw [Frac.divPNat_q, Frac.add_q]
    norm_num
  by_cases hi : 0 < i <;> by_cases hn : i + 1 < chunks.length
  · obtain ⟨hr1, hq1⟩ := hrate _ (hprev hi)
    obtain ⟨hr2, hq2⟩ := hrate _ (hnext hn)
    simp only [contextScore, if_pos hi, if_pos hn, hr1, hr2,
      Option.bind_eq_bind, Option.some_bind]
    refine ⟨_, rfl, ?_⟩
    rw [hhalf, hq1, hq2, claimContextSum, claimNeighbors, if_pos hi,
      if_pos hn]
    simp
  · obtain ⟨hr1, hq1⟩ := hrate _ (hprev hi)
    simp only [contextScore, if_pos hi, if_neg hn, hr1,
      Option.bind_eq_bind, Option.some_bind]
    refine ⟨_, rfl, ?_⟩
    rw [hhalf, hq1, hz, claimContextSum, claimNeighbors, if_pos hi,
      if_neg hn]
    simp
  · obtain ⟨hr2, hq2⟩ := hrate _ (hnext hn)
    simp only [contextScore, if_neg hi, if_pos hn, hr2,
      Option.bind_eq_bind, Option.some_bind]
    refine ⟨_, rfl, ?_⟩
    rw [hhalf, hq2, hz, claimContextSum, claimNeighbors, if_neg hi,
      if_pos hn]
    simp
  · simp only [contextScore, if_neg hi, if_neg hn,
      Option.bind_eq_bind, Option.some_bind]
    refine ⟨_, rfl, ?_⟩
    rw [hhalf, hz, claimContextSum, claimNeighbors, if_neg hi, if_neg hn]
    simp

/-- C5 (amended): for chunk `i` with word count `w ≥ 1` whose existing
neighbours also have nonzero word counts (otherwise the scorer raises
`ZeroDivisionError`), the relevance score equals
`0.4·density + 0.2·partial + 0.2·context + 0.2·metadata` with `density`,
`partial` and `metadata` as claimed and `context` equal to half the sum
(not the halved average) of the neighbour hit rates. -/
theorem c5_score_formula (chunks : List Str) (keywords : List Str)
    (isMetaQ : Bool) (i : Nat) (chunk : Str) (w : ℕ+)
    (hw : (pySplit chunk).length = (w : ℕ))
    (hmq : isMetaQ = isMetaQuestion keywords)
    (hprev : 0 < i → (pySplit (pyLower (chunks.getD (i - 1) []))).length ≠ 0)
    (hnext : i + 1 < chunks.length →
      (pySplit (pyLower (chunks.getD (i + 1) []))).length ≠ 0) :
    (scoreChunk chunks keywords isMetaQ i chunk w).map Frac.q =
      some (claimScoreSum chunks keywords i chunk) := by
  obtain ⟨ctx, hctx, hctxq⟩ := contextScore_q chunks keywords i hprev hnext
  have hwq : ((pySplit chunk).length : ℚ) = ((w : ℕ) : ℚ) := by
    exact_mod_cast hw
  have hfq : ∀ n : ℕ, (⟨(n : Int), w⟩ : Frac).q =
      (n : ℚ) / ((pySplit chunk).length : ℚ) := by
    intro n
    rw [Frac.q]
    dsimp only
    rw [← hwq]
    push_cast
    ring
  simp only [scoreChunk, hctx, Option.bind_eq_bind, Option.some_bind,
    Option.map_some']
  congr 1
  simp only [Frac.add_q, Frac.mul_q]
  rw [hctxq, claimScoreSum, claimDensity, claimPartScore, claimMetadata,
    ← hmq]
  have h410 : (⟨4, 10⟩ : Frac).q = 0.4 := by
    rw [Frac.q]
    norm_num
  have h210 : (⟨2, 10⟩ : Frac).q = 0.2 := by
    rw [Frac.q]
    norm_num
  rw [h410, h210, hfq, hfq]
  cases isMetaQ with
  | false =>
    simp only [Bool.false_eq_true, if_false]
    rw [show (⟨0, 1⟩ : Frac).q = 0 from by simp [Frac.q]]
    ring
  | true =>
    simp only [if_true]
    rw [hfq]
    ring

/-- Witness for C5 at the middle chunk of the concrete three-chunk input. -/
theorem c5_score_formula_witness :
    (scoreChunk c5Chunks (keywordsOf (str "x"))
        (isMetaQuestion (keywordsOf (str "x"))) 1 (str "x") 1).map Frac.q =
      some (claimScoreSum c5Chunks (keywordsOf (str "x")) 1 (str "x")) :=
  c5_score_formula c5Chunks (keywordsOf (str "x"))
    (isMetaQuestion (keywordsOf (str "x"))) 1 (str "x") 1
    (by decide) (by decide) (by decide) (by decide)

/-! ## C6: the candidate order for equal scores -/

/-- Two identical one-word chunks, each containing the question keyword:
both score exactly 0.7. -/
def c6Chunks : List Str := [str "x", str "x"]

/-- C6 counterexample: the two chunks have equal scores, yet the candidate
order produced by `chunk_scores.sort(reverse=True)` places index 1 before
index 0 — the tuple sort reverses the index tiebreak rather than keeping
encountering order. -/
theorem c6_tie_order_counterexample :
    chunkScores c6Chunks (str "x") =
      some [(⟨14000, 20000⟩, 0, str "x"), (⟨14000, 20000⟩, 1, str "x")] ∧
    (List.insertionSort scoreBefore
        [((⟨14000, 20000⟩ : Frac), 0, str "x"),
         (⟨14000, 20000⟩, 1, str "x")]).map (fun t => t.2.1) = [1, 0] :=
  ⟨by decide, by decide⟩

/-- C6 (amended): the candidate order is a permutation of the scored
chunks sorted by score descending with ties broken by the larger original
index first: consecutive candidates `a` before `b` always satisfy
`score b < score a`, or the scores are equal and `b`'s index is at most
`a`'s. -/
theorem c6_sort_order (chunks : List Str) (question : Str)
    (scores : List (Frac × Nat × Str))
    (_h : chunkScores chunks question = some scores) :
    (List.insertionSort scoreBefore scores).Pairwise scoreBefore ∧
    (List.insertionSort scoreBefore scores).Perm scores := by
  exact ⟨List.sorted_insertionSort scoreBefore scores,
    List.perm_insertionSort scoreBefore scores⟩

/-- Witness for C6 at the concrete two-chunk input. -/
theorem c6_sort_order_witness :
    (List.insertionSort scoreBefore
        [((⟨14000, 20000⟩ : Frac), 0, str "x"),
         (⟨14000, 20000⟩, 1, str "x")]).Pairwise scoreBefore ∧
    (List.insertionSort scoreBefore
        [((⟨14000, 20000⟩ : Frac), 0, str "x"),
         (⟨14000, 20000⟩, 1, str "x")]).Perm
      [((⟨14000, 20000⟩ : Frac), 0, str "x"), (⟨14000, 20000⟩, 1, str "x")] :=
  c6_sort_order c6Chunks (str "x") _ (by decide)

/-! ## C3 and C4 amended: selection and context-length bounds -/

/-- The truncation walk keeps the summed length within the remaining
budget. -/
theorem truncGo_sum_le (maxLen : Nat) (l : List Str) :
    ∀ cur, ((truncGo maxLen cur l).map List.length).sum ≤ maxLen - cur := by
  induction l with
  | nil => intro cur; simp [truncGo]
  | cons c cs ih =>
    intro cur
    rw [truncGo]
    split_ifs with h1 h2
    · have := ih (cur + c.length)
      simp only [List.map_cons, List.sum_cons]
      omega
    · simp only [List.map_cons, List.map_nil, List.sum_cons, List.sum_nil,
        List.length_take]
      omega
    · simp

/-- The truncated selection never exceeds `maxLen` characters in summed
length. -/
theorem truncateChunks_sum_le (maxLen : Nat) (sel : List Str) :
    ((truncateChunks maxLen sel).map List.length).sum ≤ maxLen := by
  rw [truncateChunks]
  split_ifs with h
  · have := truncGo_sum_le maxLen sel 0
    omega
  · omega

/-- The truncation walk returns at most as many chunks as it was given. -/
theorem truncGo_length_le (maxLen : Nat) (l : List Str) :
    ∀ cur, (truncGo maxLen cur l).length ≤ l.length := by
  induction l with
  | nil => intro cur; simp [truncGo]
  | cons c cs ih =>
    intro cur
    rw [truncGo]
    split_ifs with h1 h2
    · have := ih (cur + c.length)
      simp only [List.length_cons]
      omega
    · simp [List.length_cons]
    · simp

/-- Truncation does not increase the number of chunks. -/
theorem truncateChunks_length_le (maxLen : Nat) (sel : List Str) :
    (truncateChunks maxLen sel).length ≤ sel.length := by
  rw [truncateChunks]
  split_ifs with h
  · exact truncGo_length_le maxLen sel 0
  · exact le_rfl

/-- The length of a space-joined chunk list counts one separator between
each pair of adjacent chunks. -/
theorem joinSpace_length (l : List Str) :
    (joinSpace l).length = (l.map List.length).sum + (l.length - 1) := by
  induction l with
  | nil => simp [joinSpace]
  | cons x xs ih =>
    cases xs with
    | nil => simp [joinSpace]
    | cons y rest =>
      rw [joinSpace, List.length_append, List.length_cons, ih]
      simp only [List.map_cons, List.sum_cons, List.length_cons]
      omega

/-- One selection step grows the selected list by at most three chunks
(the chunk and its two neighbours). -/
theorem selectStep_length_le (chunks : List Str) (m : Nat)
    (st : List Nat × List Str) (t : Frac × Nat × Str) :
    (selectStep chunks m st t).2.length ≤ st.2.length + 3 ∧
    (m ≤ st.2.length → selectStep chunks m st t = st) := by
  constructor
  · simp only [selectStep]
    split_ifs <;>
      (try simp only [List.length_append, List.length_singleton]) <;> omega
  · intro h
    rw [selectStep, if_pos h]

/-- The selection fold never exceeds `m + 2` selected chunks. -/
theorem selection_fold_length_le (chunks : List Str) (m : Nat)
    (l : List (Frac × Nat × Str)) :
    ∀ st : List Nat × List Str, st.2.length ≤ m + 2 →
      ((l.foldl (selectStep chunks m) st).2).length ≤ m + 2 := by
  induction l with
  | nil => intro st h; simpa using h
  | cons t ts ih =>
    intro st h
    rw [List.foldl_cons]
    apply ih
    by_cases hm : m ≤ st.2.length
    · rw [(selectStep_length_le chunks m st t).2 hm]
      exact h
    · have := (selectStep_length_le chunks m st t).1
      omega

/-- Restoring document order preserves the number of chunks. -/
theorem restoreOrder_length (chunks sel : List Str) :
    (restoreOrder chunks sel).length = sel.length :=
  (List.perm_insertionSort (chunkIndexLE chunks) sel).length_eq

/-- C4 (amended): whenever the scorer completes without a division error,
the selector returns at most `max_chunks + 2 = 10` chunks: the selection
loop stops as soon as the count has reached `max_chunks`, but the final
score-selected chunk may bring in its two neighbours, overshooting the
cap by up to two. -/
theorem c4_selection_bound (chunks : List Str) (question : Str)
    (r : List Str) (h : getRelevantChunks chunks question = some r) :
    r.length ≤ 10 ∧
    ∀ (st : List Nat × List Str) (t : Frac × Nat × Str), 8 ≤ st.2.length →
      selectStep chunks 8 st t = st := by
  constructor
  · simp only [getRelevantChunks, getRelevantChunksTuned, Option.bind_eq_bind,
      Option.bind_eq_some] at h
    obtain ⟨scores, _, hr⟩ := h
    have hsel := selection_fold_length_le chunks 8
      (List.insertionSort scoreBefore scores) ([], []) (by simp)
    have hres : r = truncateChunks 4000 (restoreOrder chunks
        ((List.insertionSort scoreBefore scores).foldl
          (selectStep chunks 8) ([], [])).2) := (Option.some.inj hr).symm
    rw [hres]
    calc (truncateChunks 4000 (restoreOrder chunks _)).length
        ≤ (restoreOrder chunks _).length := truncateChunks_length_le _ _
      _ = _ := restoreOrder_length _ _
      _ ≤ 10 := hsel
  · intro st t hst
    exact (selectStep_length_le chunks 8 st t).2 hst

/-- Witness for C4 at a concrete input. -/
theorem c4_selection_bound_witness :
    getRelevantChunks [str "hi."] (str "zz") = some [str "hi."] ∧
    ([str "hi."] : List Str).length ≤ 10 :=
  ⟨by decide,
   (c4_selection_bound [str "hi."] (str "zz") [str "hi."] (by decide)).1⟩

/-- C3 (amended): whenever the scorer completes, the summed length of the
returned chunks is at most `max_context_length = 4000`, and the assembled
context (the chunks joined with single separating spaces) exceeds the
bound only by the separators: its length is at most
`4000 + (number of returned chunks - 1)`. -/
theorem c3_context_length_bound (chunks : List Str) (question : Str)
    (r : List Str) (h : getRelevantChunks chunks question = some r) :
    ((r.map List.length).sum ≤ 4000) ∧
    (joinSpace r).length ≤ 4000 + (r.length - 1) := by
  simp only [getRelevantChunks, getRelevantChunksTuned, Option.bind_eq_bind,
    Option.bind_eq_some] at h
  obtain ⟨scores, _, hr⟩ := h
  have hres : r = truncateChunks 4000 (restoreOrder chunks
      ((List.insertionSort scoreBefore scores).foldl
        (selectStep chunks 8) ([], [])).2) := (Option.some.inj hr).symm
  have hsum : (r.map List.length).sum ≤ 4000 := by
    rw [hres]
    exact truncateChunks_sum_le _ _
  refine ⟨hsum, ?_⟩
  rw [joinSpace_length]
  omega

/-- Witness for C3 at a concrete input. -/
theorem c3_context_length_bound_witness :
    getRelevantChunks [str "ok."] (str "zz") = some [str "ok."] ∧
    (([str "ok."] : List Str).map List.length).sum ≤ 4000 :=
  ⟨by decide,
   (c3_context_length_bound [str "ok."] (str "zz") [str "ok."] (by decide)).1⟩

/-! ## The scorer never crashes on splitter output

`ZeroDivisionError` requires a chunk whose existing neighbour has zero
words; every chunk the splitter emits has at least one word. -/

/-- A neighbour with a word never raises. -/
theorem neighborRate_isSome (keywords : List Str) (nb : Str)
    (h : (pySplit (pyLower nb)).length ≠ 0) :
    ∃ f, neighborRate keywords nb = some f := by
  rw [neighborRate]
  exact ⟨_, dif_neg h⟩

/-- With every chunk containing a word, the context score is defined. -/
theorem contextScore_isSome (chunks keywords : List Str) (i : Nat)
    (h : ∀ ch ∈ chunks, ∃ c ∈ ch, isPySpace c = false)
    (hi : i < chunks.length) :
    ∃ f, contextScore chunks keywords i = some f := by
  have hnb : ∀ j, j < chunks.length →
      (pySplit (pyLower (chunks.getD j []))).length ≠ 0 := by
    intro j hj
    obtain ⟨c, hc, hcs⟩ := h (chunks.getD j []) (by
      rw [List.getD_eq_getElem chunks [] hj]
      exact List.getElem_mem hj)
    simpa [List.length_eq_zero] using pySplit_pyLower_ne_nil _ c hc hcs
  obtain ⟨ctx, hctx, _⟩ := contextScore_q chunks keywords i
    (fun _ => hnb (i - 1) (by omega))
    (fun h1 => hnb (i + 1) h1)
  exact ⟨ctx, hctx⟩

/-- With every chunk containing a word, each chunk's score is defined. -/
theorem scoreChunk_isSome (chunks keywords : List Str) (isMetaQ : Bool)
    (i : Nat) (c : Str) (w : ℕ+)
    (h : ∀ ch ∈ chunks, ∃ c2 ∈ ch, isPySpace c2 = false)
    (hi : i < chunks.length) :
    ∃ s, scoreChunk chunks keywords isMetaQ i c w = some s := by
  obtain ⟨ctx, hctx⟩ := contextScore_isSome chunks keywords i h hi
  simp only [scoreChunk, hctx, Option.bind_eq_bind, Option.some_bind]
  exact ⟨_, rfl⟩

/-- The scoring loop succeeds when every chunk contains a word. -/
theorem scoreChunksGo_isSome (chunks keywords : List Str) (isMetaQ : Bool)
    (h : ∀ ch ∈ chunks, ∃ c ∈ ch, isPySpace c = false) :
    ∀ rest : List Str, ∀ i : Nat, i + rest.length = chunks.length →
      ∃ s, scoreChunksGo chunks keywords isMetaQ i rest = some s := by
  intro rest
  induction rest with
  | nil =>
    intro i _
    exact ⟨[], rfl⟩
  | cons c rest' ih =>
    intro i hi
    simp only [scoreChunksGo]
    by_cases hw : (pySplit c).length = 0
    · rw [dif_pos hw]
      exact ih (i + 1) (by simp only [List.length_cons] at hi; omega)
    · rw [dif_neg hw]
      have hilt : i < chunks.length := by
        simp only [List.length_cons] at hi
        omega
      obtain ⟨sc, hsc⟩ := scoreChunk_isSome chunks keywords isMetaQ i c
        ⟨(pySplit c).length, Nat.pos_of_ne_zero hw⟩ h hilt
      obtain ⟨tail, htail⟩ :=
        ih (i + 1) (by simp only [List.length_cons] at hi; omega)
      simp only [hsc, htail, Option.bind_eq_bind, Option.some_bind]
      exact ⟨_, rfl⟩

/-- `chunk_scores` is defined when every chunk contains a word. -/
theorem chunkScores_isSome (chunks : List Str) (question : Str)
    (h : ∀ ch ∈ chunks, ∃ c ∈ ch, isPySpace c = false) :
    ∃ s, chunkScores chunks question = some s :=
  scoreChunksGo_isSome chunks (keywordsOf question)
    (isMetaQuestion (keywordsOf question)) h chunks 0 (by simp)

/-- The chunk retrieval succeeds when every chunk contains a word —
in particular on splitter output. -/
theorem getRelevantChunks_isSome (chunks : List Str) (question : Str)
    (h : ∀ ch ∈ chunks, ∃ c ∈ ch, isPySpace c = false) :
    ∃ r, getRelevantChunks chunks question = some r := by
  obtain ⟨s, hs⟩ := chunkScores_isSome chunks question h
  simp only [getRelevantChunks, getRelevantChunksTuned, hs,
    Option.bind_eq_bind, Option.some_bind]
  exact ⟨_, rfl⟩

/-! ## Orchestrator lemmas for `get_answer` -/

/-- A successful compute made exactly one model call and cached the
answer under the key with the current timestamp. -/
theorem getAnswerCompute_ok (st : QAState) (d q : Str) (now : Int)
    (resp : Option (List (Option Str))) (key a : Str) (st2 : QAState)
    (n : Nat)
    (h : getAnswerCompute st d q now resp key = (.ok a, st2, n)) :
    n = 1 ∧ cacheFind st2.answerCache key = some (a, now) := by
  rw [getAnswerCompute] at h
  split at h
  · simp at h
  · split at h
    · simp at h
    · split at h
      · simp at h
      · split at h
        · simp at h
        · injection h with he h2
          injection h2 with hs hn
          injection he with ha
          refine ⟨hn.symm, ?_⟩
          rw [← hs, ← ha]
          exact cacheFind_put_self _ _ _ _

/-! ## Concrete fixtures for the orchestrator claims -/

/-- `generateCacheKey (str "d1") (str "q1")`, precomputed. -/
def keyD1Q1 : Str :=
  str "5210273fd52a95ee4f57ee5c7c80d47e97da0a4ade10f6ba106ca94abdf7f8c0"

/-- A content cache holding a one-sentence document `d1`. -/
def fixtureContent : Cache Str := [(str "d1", str "hello.", 0)]

/-- No cached answer; content for `d1` cached. -/
def stContentOnly : QAState :=
  { answerCache := [], contentCache := fixtureContent,
    pathCache := [], files := [] }

/-- An empty string cached as the answer for `(d1, q1)`. -/
def stEmptyAnswer : QAState :=
  { answerCache := [(keyD1Q1, [], 0)], contentCache := fixtureContent,
    pathCache := [], files := [] }

/-- The answer `"ok"` cached for `(d1, q1)`. -/
def stAfterOk : QAState :=
  { answerCache := [(keyD1Q1, str "ok", 0)], contentCache := fixtureContent,
    pathCache := [], files := [] }

/-- The answer `"hi"` cached for `(d1, q1)`; no document stored. -/
def stHitAnswer : QAState :=
  { answerCache := [(keyD1Q1, str "hi", 0)], contentCache := [],
    pathCache := [], files := [] }

/-- Decidable equality of outcomes, for concrete runs. -/
instance {E A : Type} [DecidableEq E] [DecidableEq A] :
    DecidableEq (Except E A) := fun a b =>
  match a, b with
  | .ok x, .ok y =>
    if h : x = y then isTrue (by rw [h]) else isFalse (by simp [h])
  | .error x, .error y =>
    if h : x = y then isTrue (by rw [h]) else isFalse (by simp [h])
  | .ok _, .error _ => isFalse (by simp)
  | .error _, .ok _ => isFalse (by simp)

/-! ## C1: one model call per TTL window -/

/-- C1 counterexample: when the model returns the empty string, two
sequential calls within the TTL window (the second ten seconds after the
first) each invoke the model — two model calls in total, not one: the
cached empty answer fails the `if cached_response:` truthiness test. -/
theorem c1_two_calls_counterexample :
    getAnswer stContentOnly (str "d1") (str "q1") 0 (some [some []]) =
      (.ok [], stEmptyAnswer, 1) ∧
    (getAnswer stEmptyAnswer (str "d1") (str "q1") 10
      (some [some []])).2.2 = 1 ∧
    (10 : Int) - 0 < answerTTL := by
  refine ⟨by decide, by decide, by decide⟩

/-- C1 (amended): when the first call finds no cached answer, succeeds,
and the answer is a non-empty string, it makes exactly one model call,
and a second call within the TTL window is served from the cache with no
model call and returns the same answer. -/
theorem c1_single_model_call (st : QAState) (d q : Str) (t1 t2 : Int)
    (resp resp2 : Option (List (Option Str))) (a : Str) (st1 : QAState)
    (n1 : Nat)
    (hmiss : cacheFind st.answerCache (generateCacheKey d q) = none)
    (h1 : getAnswer st d q t1 resp = (.ok a, st1, n1))
    (ha : a ≠ [])
    (hfresh : t2 - t1 < answerTTL) :
    n1 = 1 ∧ ∃ st2, getAnswer st1 d q t2 resp2 = (.ok a, st2, 0) := by
  rw [show getAnswer st d q t1 resp =
      getAnswerCompute st d q t1 resp (generateCacheKey d q) by
    simp only [getAnswer, cacheGet_none answerTTL st.answerCache _ t1 hmiss]]
    at h1
  obtain ⟨hn, hfind⟩ := getAnswerCompute_ok st d q t1 resp _ a st1 n1 h1
  have hget2 := cacheGet_hit answerTTL st1.answerCache
    (generateCacheKey d q) t2 a t1 hfind hfresh
  have hae : a.isEmpty = false := by simpa [List.isEmpty_iff] using ha
  refine ⟨hn, st1, ?_⟩
  simp [getAnswer, hget2, hae]

/-- Witness for the amended C1 at concrete inputs. -/
theorem c1_single_model_call_witness :
    1 = 1 ∧ ∃ st2, getAnswer stAfterOk (str "d1") (str "q1") 10
      (some [some (str "ok")]) = (.ok (str "ok"), st2, 0) :=
  c1_single_model_call stContentOnly (str "d1") (str "q1") 0 10
    (some [some (str "ok")]) (some [some (str "ok")]) (str "ok")
    stAfterOk 1 (by decide) (by decide) (by decide) (by decide)

/-! ## C2: the error contract of `get_answer` -/

/-- C2 counterexample: with a fresh cached answer for the key,
`get_answer` returns it even though no document matches the id (all
caches except the answer cache are empty and no file is stored) and even
though the model collaborator would fail — it does not raise
`DocumentNotFoundError`. -/
theorem c2_error_cases_counterexample :
    stHitAnswer.contentCache = [] ∧ stHitAnswer.pathCache = [] ∧
    stHitAnswer.files = [] ∧
    getAnswer stHitAnswer (str "d1") (str "q1") 10 none =
      (.ok (str "hi"), stHitAnswer, 0) := by
  refine ⟨rfl, rfl, rfl, by decide⟩

/-- C2 (amended): when the answer cache has no entry for the key, the
claimed contract holds: `get_answer` fails with `DocumentNotFoundError`
when no cache entry and no stored file matches the document id; and once
the document content is obtained, it fails with the upstream `ValueError`
exactly when the model call fails or returns no choices, and returns an
answer text whenever the response carries at least one choice. -/
theorem c2_error_cases :
    (∀ st : QAState, ∀ d q : Str, ∀ now : Int,
      ∀ resp : Option (List (Option Str)),
      cacheFind st.answerCache (generateCacheKey d q) = none →
      (∀ v ts, cacheFind st.contentCache d = some (v, ts) →
        contentTTL ≤ now - ts) →
      (∀ p ts, cacheFind st.pathCache d = some (p, ts) →
        contentTTL ≤ now - ts) →
      (∀ e ∈ allowedExtensions, fileExists st.files (docPathFor d e) = false) →
      ∃ st2, getAnswer st d q now resp =
        (.error (QAErr.notFound d), st2, 0)) ∧
    (∀ st : QAState, ∀ d q content : Str, ∀ now : Int, ∀ st1 : QAState,
      ∀ resp : Option (List (Option Str)),
      cacheFind st.answerCache (generateCacheKey d q) = none →
      getDocumentContent st d now = (.ok content, st1) →
      ((resp = none ∨ resp = some []) →
        ∃ st2, getAnswer st d q now resp = (.error QAErr.upstream, st2, 1)) ∧
      (∀ choice rest, resp = some (choice :: rest) →
        ∃ a st2, getAnswer st d q now resp = (.ok a, st2, 1))) := by
  constructor
  · intro st d q now resp hmiss hc hp hf
    have hga : getAnswer st d q now resp =
        getAnswerCompute st d q now resp (generateCacheKey d q) := by
      simp only [getAnswer, cacheGet_none answerTTL st.answerCache _ now hmiss]
    obtain ⟨cc1, hcget⟩ : ∃ cc1,
        cacheGet contentTTL st.contentCache d now = (none, cc1) := by
      rcases hfc : cacheFind st.contentCache d with _ | ⟨v, ts⟩
      · exact ⟨_, cacheGet_none contentTTL st.contentCache d now hfc⟩
      · exact ⟨_, cacheGet_expired contentTTL st.contentCache d now v ts hfc
          (not_lt.mpr (hc v ts hfc))⟩
    obtain ⟨pc1, hpget⟩ : ∃ pc1,
        cacheGet contentTTL st.pathCache d now = (none, pc1) := by
      rcases hfp : cacheFind st.pathCache d with _ | ⟨v, ts⟩
      · exact ⟨_, cacheGet_none contentTTL st.pathCache d now hfp⟩
      · exact ⟨_, cacheGet_expired contentTTL st.pathCache d now v ts hfp
          (not_lt.mpr (hp v ts hfp))⟩
    have hfind : allowedExtensions.find?
        (fun e => fileExists st.files (docPathFor d e)) = none := by
      rw [List.find?_eq_none]
      intro x hx
      simp [hf x hx]
    have hdp : getDocumentPath st.pathCache st.files d now =
        (none, pc1) := by
      simp only [getDocumentPath, hpget, hfind]
    rw [hga]
    simp only [getAnswerCompute, getDocumentContent, hcget,
      getDocumentContentDisk, hdp]
    exact ⟨_, rfl⟩
  · intro st d q content now st1 resp hmiss hdc
    have hga : getAnswer st d q now resp =
        getAnswerCompute st d q now resp (generateCacheKey d q) := by
      simp only [getAnswer, cacheGet_none answerTTL st.answerCache _ now hmiss]
    obtain ⟨rel, hrel⟩ := getRelevantChunks_isSome (splitIntoChunks content) q
      (splitIntoChunks_hasWord content)
    constructor
    · intro hr
      rcases hr with rfl | rfl
      · rw [hga]
        simp only [getAnswerCompute, hdc, hrel]
        exact ⟨_, rfl⟩
      · rw [hga]
        simp only [getAnswerCompute, hdc, hrel, List.head?_nil]
        exact ⟨_, rfl⟩
    · intro choice rest hr
      subst hr
      rw [hga]
      simp only [getAnswerCompute, hdc, hrel, List.head?_cons]
      exact ⟨_, _, rfl⟩

/-- Expired content and path entries for `d1` (stored 1010 seconds before
the call, past the 300-second TTL); no files. -/
def stExpired : QAState :=
  { answerCache := [],
    contentCache := [(str "d1", str "hello.", -1000)],
    pathCache := [(str "d1", str "uploads/d1.txt", -1000)],
    files := [] }

/-- Witness for the amended C2 at concrete inputs; the not-found part is
exercised on a state whose content and path caches hold expired entries. -/
theorem c2_error_cases_witness :
    (∃ st2, getAnswer stExpired (str "d1") (str "q1") 10 none =
      (.error (QAErr.notFound (str "d1")), st2, 0)) ∧
    (∃ st2, getAnswer stContentOnly (str "d1") (str "q1") 10 none =
      (.error QAErr.upstream, st2, 1)) ∧
    (∃ a st2, getAnswer stContentOnly (str "d1") (str "q1") 10
      (some [some (str "ok")]) = (.ok a, st2, 1)) :=
  ⟨c2_error_cases.1 stExpired (str "d1") (str "q1") 10 none rfl
      (by
        intro v ts h
        rw [show cacheFind stExpired.contentCache (str "d1") =
            some (str "hello.", (-1000 : Int)) by decide] at h
        injection h with h2
        injection h2 with h3 h4
        rw [← h4]
        decide)
      (by
        intro v ts h
        rw [show cacheFind stExpired.pathCache (str "d1") =
            some (str "uploads/d1.txt", (-1000 : Int)) by decide] at h
        injection h with h2
        injection h2 with h3 h4
        rw [← h4]
        decide)
      (by decide),
    (c2_error_cases.2 stContentOnly (str "d1") (str "q1") (str "hello.") 10
      stContentOnly none rfl (by decide)).1 (Or.inl rfl),
    (c2_error_cases.2 stContentOnly (str "d1") (str "q1") (str "hello.") 10
      stContentOnly (some [some (str "ok")]) rfl (by decide)).2
      (some (str "ok")) [] rfl⟩

/-! ## C10: an empty cached answer never short-circuits -/

/-- C10 (confirmed): a cached empty answer fails the truthiness test, so
a fresh-in-TTL empty entry still leads to a recomputation with one model
call (whenever the document content is obtainable); and conversely a call
that makes no model call (is served from the cache) never returns an
empty answer. -/
theorem c10_empty_answer_recompute :
    (∀ st : QAState, ∀ d q : Str, ∀ now tp : Int,
      ∀ resp : Option (List (Option Str)), ∀ content : Str, ∀ st1 : QAState,
      cacheFind st.answerCache (generateCacheKey d q) = some ([], tp) →
      now - tp < answerTTL →
      getDocumentContent st d now = (.ok content, st1) →
      (getAnswer st d q now resp).2.2 = 1) ∧
    (∀ st : QAState, ∀ d q : Str, ∀ now : Int,
      ∀ resp : Option (List (Option Str)), ∀ a : Str, ∀ st1 : QAState,
      getAnswer st d q now resp = (.ok a, st1, 0) → a ≠ []) := by
  constructor
  · intro st d q now tp resp content st1 hfind hfresh hdc
    have hget := cacheGet_hit answerTTL st.answerCache
      (generateCacheKey d q) now [] tp hfind hfresh
    have hga : getAnswer st d q now resp =
        getAnswerCompute st d q now resp (generateCacheKey d q) := by
      simp [getAnswer, hget]
    obtain ⟨rel, hrel⟩ := getRelevantChunks_isSome (splitIntoChunks content) q
      (splitIntoChunks_hasWord content)
    rw [hga]
    simp only [getAnswerCompute, hdc, hrel]
    rcases resp with _ | choices
    · rfl
    · rcases choices with _ | ⟨choice, rest⟩ <;> rfl
  · intro st d q now resp a st1 h
    rcases hfind : cacheFind st.answerCache (generateCacheKey d q)
      with _ | ⟨v, ts⟩
    · rw [show getAnswer st d q now resp =
          getAnswerCompute st d q now resp (generateCacheKey d q) by
        simp only [getAnswer,
          cacheGet_none answerTTL st.answerCache _ now hfind]] at h
      obtain ⟨hn, _⟩ := getAnswerCompute_ok st d q now resp _ a st1 0 h
      exact absurd hn (by decide)
    · by_cases hfr : now - ts < answerTTL
      · have hget := cacheGet_hit answerTTL st.answerCache
          (generateCacheKey d q) now v ts hfind hfr
        by_cases hv : v = []
        · subst hv
          rw [show getAnswer st d q now resp =
              getAnswerCompute st d q now resp (generateCacheKey d q) by
            simp [getAnswer, hget]] at h
          obtain ⟨hn, _⟩ := getAnswerCompute_ok st d q now resp _ a st1 0 h
          exact absurd hn (by decide)
        · have hve : v.isEmpty = false := by
            simpa [List.isEmpty_iff] using hv
          rw [show getAnswer st d q now resp =
              (.ok v, { st with answerCache := st.answerCache }, 0) by
            simp [getAnswer, hget, hve]] at h
          have hva : v = a := by
            injection h with he h2
            injection he
          intro hra
          exact hv (hva.trans hra)
      · have hget := cacheGet_expired answerTTL st.answerCache
          (generateCacheKey d q) now v ts hfind hfr
        rw [show getAnswer st d q now resp =
            getAnswerCompute
              { st with answerCache :=
                  cacheErase st.answerCache (generateCacheKey d q) }
              d q now resp (generateCacheKey d q) by
          simp only [getAnswer, hget]] at h
        obtain ⟨hn, _⟩ := getAnswerCompute_ok _ d q now resp _ a st1 0 h
        exact absurd hn (by decide)

/-- Witness for C10 at concrete inputs. -/
theorem c10_empty_answer_recompute_witness :
    (getAnswer stEmptyAnswer (str "d1") (str "q1") 10
      (some [some (str "ok")])).2.2 = 1 ∧
    str "hi" ≠ [] :=
  ⟨c10_empty_answer_recompute.1 stEmptyAnswer (str "d1") (str "q1") 10 0
      (some [some (str "ok")]) (str "hello.") stEmptyAnswer (by decide)
      (by decide) (by decide),
    c10_empty_answer_recompute.2 stHitAnswer (str "d1") (str "q1") 10 none
      (str "hi") stHitAnswer (by decide)⟩
